import Mathlib

/-!
Shallow embedding of the upload ingestion and deployment pipeline of the
wrap-tiiny static-site host (source files `upload.js` and `storage.js`).

Part 1: a model of the Node.js `path` module (POSIX flavour), which the
pipeline uses for `normalize`, `isAbsolute`, `join`, `basename` and
`extname`.  Paths are strings over `/`-separated segments; the model works
on the underlying character lists.
-/

set_option autoImplicit false

/-- Splits a character list on `'/'`.  Model of the segment decomposition
performed by Node's `path.posix` functions.  `splitSlash` never returns
the empty list: splitting the empty string yields `[[]]`. -/
def splitSlash : List Char → List (List Char)
  | [] => [[]]
  | c :: cs =>
    if c = '/' then [] :: splitSlash cs
    else
      match splitSlash cs with
      | [] => [[c]]
      | s :: ss => (c :: s) :: ss

/-- Joins segments back with `'/'`; left inverse of `splitSlash`. -/
def interSlash : List (List Char) → List Char
  | [] => []
  | [s] => s
  | s :: ss => s ++ '/' :: interSlash ss

/-- One step of the `.`/`..` resolution performed by Node's
`normalizeString`: empty and `.` segments are dropped, a `..` pops the
last kept segment when one is poppable — when none is, it is kept for
relative paths (`allow` true) and dropped for absolute ones — and any
other segment is kept.  `stack` holds the output in reverse. -/
def resolveStep (allow : Bool) (stack : List (List Char)) (s : List Char) :
    List (List Char) :=
  if s = [] ∨ s = ['.'] then stack
  else if s = ['.', '.'] then
    match stack with
    | [] => if allow then [['.', '.']] else []
    | t :: stk => if t = ['.', '.'] then (if allow then ['.', '.'] :: t :: stk else t :: stk) else stk
  else s :: stack

/-- Resolves `.` and `..` segments the way Node's `normalizeString` does,
processing segments left to right. -/
def resolveSegs (allow : Bool) : List (List Char) → List (List Char) → List (List Char)
  | stack, [] => stack
  | stack, s :: rest => resolveSegs allow (resolveStep allow stack s) rest

/-- True when the character list starts with `'/'`; model of
`path.isAbsolute` on the characters of a path. -/
def isAbsChars : List Char → Bool
  | c :: _ => c = '/'
  | [] => false

/-- True when the character list ends with `'/'`.  Model of the
`/\/$/` directory-entry test and of Node's trailing-separator handling. -/
def endsSlashChars (p : List Char) : Bool :=
  match p.getLast? with
  | some c => c = '/'
  | none => false

/-- Model of Node's `path.normalize` (POSIX) on character lists:
resolve `.`/`..` segments, collapse repeated separators, keep a leading
`/` for absolute paths and a trailing `/` when the input had one, and
return `"."` (or `"/"`) when everything cancels. -/
def normChars (p : List Char) : List Char :=
  if p = [] then ['.']
  else
    let abs := isAbsChars p
    let trail := endsSlashChars p
    let body := interSlash ((resolveSegs (!abs) [] (splitSlash p)).reverse)
    if abs then
      if body = [] then ['/']
      else if trail then '/' :: body ++ ['/'] else '/' :: body
    else
      if body = [] then (if trail then ['.', '/'] else ['.'])
      else if trail then body ++ ['/'] else body

/-- Model of Node's `path.normalize` (POSIX). -/
def pathNormalize (p : String) : String :=
  String.mk (normChars p.data)

/-- Model of Node's `path.isAbsolute` (POSIX). -/
def pathIsAbsolute (p : String) : Bool :=
  isAbsChars p.data

/-- Model of Node's two-argument `path.join` (POSIX): concatenate with a
separator and normalize; empty arguments are skipped as Node does. -/
def pathJoin (a b : String) : String :=
  if a = "" ∧ b = "" then "."
  else if a = "" then pathNormalize b
  else if b = "" then pathNormalize a
  else pathNormalize (a ++ "/" ++ b)

/-- The last path segment of a character list, ignoring trailing
separators; the characters of Node's `path.basename`. -/
def lastSeg (p : List Char) : List Char :=
  (((p.reverse.dropWhile (fun c => c = '/')).takeWhile (fun c => !(c = '/')))).reverse

/-- Model of Node's `path.basename` (POSIX). -/
def basename (p : String) : String :=
  String.mk (lastSeg p.data)

/-- Model of Node's `path.extname` (POSIX): the suffix of the base name
from its last dot, or `""` when there is no dot, the only dot starts the
base name (dotfiles), or the base name is `".."`. -/
def extname (p : String) : String :=
  let b := lastSeg p.data
  if b = ['.', '.'] then ""
  else
    let after := b.reverse.takeWhile (fun c => !(c = '.'))
    if after.length + 1 < b.length then String.mk ('.' :: after.reverse)
    else ""

/-- ASCII lower-casing of one character; model of the effect of
JavaScript's `toLowerCase` on the ASCII strings this pipeline handles. -/
def lowerChar (c : Char) : Char :=
  if 'A' ≤ c ∧ c ≤ 'Z' then Char.ofNat (c.toNat + 32) else c

/-- ASCII lower-casing of a string; model of `String.prototype.toLowerCase`. -/
def lowerStr (s : String) : String :=
  String.mk (s.data.map lowerChar)

/-- Decides whether `p` occurs as a contiguous sublist of `l`. -/
def isSubList (p : List Char) : List Char → Bool
  | [] => p.isEmpty
  | c :: rest => p.isPrefixOf (c :: rest) || isSubList p rest

/-- Model of JavaScript's `String.prototype.includes`. -/
def strIncludes (s pat : String) : Bool :=
  isSubList pat.data s.data

/-- Model of JavaScript's `String.prototype.startsWith`. -/
def strStartsWith (s p : String) : Bool :=
  p.data.isPrefixOf s.data

/-- Byte length of one character under UTF-8; model of the per-character
size used by `Buffer.byteLength(s, 'utf8')`. -/
def charUtf8Size (c : Char) : Nat :=
  if c.toNat < 128 then 1
  else if c.toNat < 2048 then 2
  else if c.toNat < 65536 then 3
  else 4

/-- Model of `Buffer.byteLength(s, 'utf8')`: the UTF-8 byte size of a
string; also the on-disk size of a file holding exactly these bytes. -/
def utf8Len (s : String) : Nat :=
  (s.data.map charUtf8Size).sum

/-!
Part 2: the HTML sanitizer.  The allowlists below are transcribed from the
`SANITIZE_OPTIONS` constant of `upload.js`.  The sanitizing transformation
itself is performed in the source by the external `sanitize-html` npm
library, whose code is not part of this repository.
-/

/-- The `allowedTags` list of `SANITIZE_OPTIONS`. -/
def allowedTags : List String :=
  ["h1", "h2", "h3", "h4", "h5", "h6",
   "p", "br", "hr",
   "div", "span", "section", "article", "aside", "header", "footer", "nav", "main",
   "ul", "ol", "li",
   "a", "img",
   "table", "thead", "tbody", "tr", "td", "th",
   "form", "input", "textarea", "select", "option", "button", "label",
   "strong", "em", "b", "i", "u", "small", "mark", "del", "ins", "sub", "sup",
   "blockquote", "pre", "code",
   "meta", "title", "head", "body", "html",
   "style", "link"]

/-- The wildcard (`'*'`) entry of `allowedAttributes` in `SANITIZE_OPTIONS`. -/
def wildcardAllowedAttributes : List String := ["class", "id"]

/-- The per-tag entries of `allowedAttributes` in `SANITIZE_OPTIONS`. -/
def tagAllowedAttributes : List (String × List String) :=
  [("a", ["href", "title", "target", "rel"]),
   ("img", ["src", "alt", "width", "height", "title"]),
   ("meta", ["charset", "name", "content", "viewport"]),
   ("link", ["rel", "href", "type"]),
   ("input", ["type", "name", "value", "placeholder", "required"]),
   ("textarea", ["name", "rows", "cols", "placeholder"]),
   ("select", ["name"]),
   ("option", ["value"]),
   ("form", ["action", "method"]),
   ("table", ["border", "cellpadding", "cellspacing"]),
   ("td", ["colspan", "rowspan"]),
   ("th", ["colspan", "rowspan"])]

/-- The `allowedSchemes` list of `SANITIZE_OPTIONS`. -/
def allowedSchemes : List String := ["http", "https", "mailto"]

/-- The `allowedSchemesByTag` map of `SANITIZE_OPTIONS`. -/
def allowedSchemesByTag : List (String × List String) :=
  [("img", ["http", "https", "data"]),
   ("a", ["http", "https", "mailto"])]

/-- The `transformTags` map of `SANITIZE_OPTIONS`: script-bearing elements
are rewritten into inert containers instead of being removed. -/
def transformTags : List (String × String) :=
  [("script", "span"), ("iframe", "div"), ("object", "div"), ("embed", "div")]

/-- Association-list lookup used for the tag-indexed allowlists. -/
def alookup (l : List (String × List String)) (k : String) : Option (List String) :=
  (l.find? (fun p => p.1 == k)).map (fun p => p.2)

/-- An attribute of an HTML element. -/
structure HtmlAttr where
  name : String
  value : String
deriving DecidableEq, Repr

/-- Modelled from the spec: HTML content is represented by its sequence of
markup tokens (open tags with attributes, close tags, character data), the
view of a parsed document that section 4.2 of the specification describes
the sanitizer as operating on.  The source delegates parsing and
serialisation to the external `sanitize-html` library, which is not part of
this repository. -/
inductive HtmlToken where
  | openTag (tag : String) (attrs : List HtmlAttr)
  | closeTag (tag : String)
  | text (s : String)
deriving DecidableEq, Repr

/-- Applies the `transformTags` rewriting of `SANITIZE_OPTIONS` to a tag
name: `script` becomes `span`; `iframe`, `object` and `embed` become
`div`; every other tag is unchanged. -/
def tagTransform (t : String) : String :=
  match (transformTags.find? (fun p => p.1 == t)).map (fun p => p.2) with
  | some u => u
  | none => t

/-- Modelled from the spec: the URL scheme of an attribute value — the
prefix before the first `:` when that colon precedes any `/`, compared
case-insensitively.  Values without a scheme (relative URLs) have none. -/
def urlScheme (url : String) : Option String :=
  let pre := url.data.takeWhile (fun c => !(c = ':') ∧ !(c = '/'))
  match url.data.drop pre.length with
  | ':' :: _ => if pre = [] then none else some (lowerStr (String.mk pre))
  | _ => none

/-- The URL scheme allowlist in force for a tag: the `allowedSchemesByTag`
entry when one exists, the global `allowedSchemes` otherwise. -/
def schemesForTag (t : String) : List String :=
  match alookup allowedSchemesByTag t with
  | some l => l
  | none => allowedSchemes

/-- Modelled from the spec: whether the sanitizer keeps an attribute on a
tag — its name must be in the wildcard set or the tag's allowlist, and for
`href`/`src` its value must carry no scheme outside the allowlist
(section 4.2: any other scheme in `href`/`src` is stripped). -/
def attrAllowed (t : String) (a : HtmlAttr) : Bool :=
  (wildcardAllowedAttributes.contains a.name ||
    (match alookup tagAllowedAttributes t with
     | some l => l.contains a.name
     | none => false)) &&
  (if a.name = "href" ∨ a.name = "src" then
     match urlScheme a.value with
     | none => true
     | some sch => (schemesForTag t).contains sch
   else true)

/-- Keeps exactly the attributes the sanitizer allows on tag `t`. -/
def filterAttrs (t : String) (attrs : List HtmlAttr) : List HtmlAttr :=
  attrs.filter (attrAllowed t)

/-- Modelled from the spec: the sanitizing transformation that the source's
`sanitizeHtml` wrapper obtains from the `sanitize-html` library (not part
of this repository) configured with `SANITIZE_OPTIONS`.  Tag names are
lower-cased, `transformTags` is applied, tags outside `allowedTags` are
discarded with their children promoted (`disallowedTagsMode: 'discard'`),
and surviving tags keep only allowlisted attributes with allowlisted URL
schemes. -/
def sanitizeTokens : List HtmlToken → List HtmlToken
  | [] => []
  | .text s :: rest => .text s :: sanitizeTokens rest
  | .closeTag t :: rest =>
    let t' := tagTransform (lowerStr t)
    if allowedTags.contains t' then .closeTag t' :: sanitizeTokens rest
    else sanitizeTokens rest
  | .openTag t attrs :: rest =>
    let t' := tagTransform (lowerStr t)
    if allowedTags.contains t' then .openTag t' (filterAttrs t' attrs) :: sanitizeTokens rest
    else sanitizeTokens rest

/-- Serialisation of one attribute. -/
def renderAttr (a : HtmlAttr) : String :=
  " " ++ a.name ++ "=\"" ++ a.value ++ "\""

/-- Serialisation of an attribute list. -/
def renderAttrs : List HtmlAttr → String
  | [] => ""
  | a :: rest => renderAttr a ++ renderAttrs rest

/-- Serialisation of one token. -/
def renderToken : HtmlToken → String
  | .openTag t attrs => "<" ++ t ++ renderAttrs attrs ++ ">"
  | .closeTag t => "</" ++ t ++ ">"
  | .text s => s

/-- Modelled from the spec: serialisation of a token sequence back to the
byte string stored on disk; the inverse direction of the parsing that the
external `sanitize-html` library performs. -/
def render : List HtmlToken → String
  | [] => ""
  | tok :: rest => renderToken tok ++ render rest

/-!
Part 3: the upload pipeline of `upload.js` and the storage layer of
`storage.js`.  Filesystem state is modelled by an explicit trace of the
file-level operations the specification's invariants mention (file writes,
byte-for-byte copies, recursive directory removal, single-file unlink);
directory creation is elided.  All modelled I/O primitives succeed, so the
only failures are the ones raised by the pipeline's own checks.
-/

/-- One member of an uploaded ZIP archive: its name as recorded in the
archive and its decompressed content (as markup tokens, whose
serialisation `render` gives the entry's bytes). -/
structure ZipEntry where
  fileName : String
  content : List HtmlToken
deriving DecidableEq, Repr

/-- The content of an uploaded temp file: either an HTML document or a ZIP
archive. -/
inductive UploadContent where
  | htmlDoc (toks : List HtmlToken)
  | zipArchive (entries : List ZipEntry)
deriving DecidableEq, Repr

/-- The multer file object the API layer hands to `processUpload`:
original client file name, byte size, server-side temp path, and content. -/
structure MulterFile where
  originalname : String
  size : Nat
  path : String
  content : UploadContent
deriving DecidableEq, Repr

/-- A file-level filesystem operation. -/
inductive FsEvent where
  | writeFile (path : String) (bytes : String)
  | copyFile (src dst : String) (bytes : String)
  | rmTree (path : String)
  | unlink (path : String)
deriving DecidableEq, Repr

/-- The destination file of an event, when it creates one. -/
def eventDest : FsEvent → Option String
  | .writeFile p _ => some p
  | .copyFile _ dst _ => some dst
  | _ => none

/-- The number of bytes an event writes. -/
def eventBytes : FsEvent → Nat
  | .writeFile _ b => utf8Len b
  | .copyFile _ _ b => utf8Len b
  | _ => 0

/-- Total bytes written by a trace. -/
def writtenBytes (evs : List FsEvent) : Nat :=
  (evs.map eventBytes).sum

/-- Total bytes written by a trace to files strictly below `root`. -/
def writtenBytesUnder (root : String) (evs : List FsEvent) : Nat :=
  writtenBytes (evs.filter (fun ev =>
    match eventDest ev with
    | some p => strStartsWith p (root ++ "/")
    | none => false))

/-- The validation constants of `upload.js` (`MAX_HTML_SIZE` default: the
`MAX_HTML_BYTES` environment override is absent). -/
def MAX_HTML_SIZE : Nat := 5000000

/-- The `MAX_ZIP_SIZE` default of `upload.js`. -/
def MAX_ZIP_SIZE : Nat := 25000000

/-- The `ALLOWED_HTML_EXTENSIONS` constant of `upload.js`. -/
def ALLOWED_HTML_EXTENSIONS : List String := [".html", ".htm"]

/-- The `ALLOWED_ZIP_EXTENSIONS` constant of `upload.js`. -/
def ALLOWED_ZIP_EXTENSIONS : List String := [".zip"]

/-- The `ALLOWED_ZIP_CONTENT` constant of `upload.js`: extensions
permitted for members of an uploaded archive. -/
def ALLOWED_ZIP_CONTENT : List String :=
  [".html", ".htm", ".css", ".js", ".json",
   ".png", ".jpg", ".jpeg", ".gif", ".svg", ".webp",
   ".woff", ".woff2", ".ttf", ".otf",
   ".txt", ".md"]

/-- The megabyte figure interpolated into the size-limit error messages:
`Math.round(max / 1024 / 1024)`, computed exactly over naturals
(half-up rounding of `max / 1048576`). -/
def mbRound (max : Nat) : Nat :=
  (2 * max + 1048576) / 2097152

/-- Embedding of `UploadProcessor.validateFile` with the two size
ceilings as parameters (in the source they are module constants
overridable through environment variables; the defaults are
`MAX_HTML_SIZE` and `MAX_ZIP_SIZE`).  A missing file object or an empty
original name is the falsy `!file || !file.originalname` case. -/
def validateFileCfg (maxHtmlSize maxZipSize : Nat) (file : Option MulterFile) (type : String) :
    Except String Unit :=
  match file with
  | none => .error "No file provided"
  | some f =>
    if f.originalname = "" then .error "No file provided"
    else
      let ext := lowerStr (extname f.originalname)
      if type = "html" then
        if ALLOWED_HTML_EXTENSIONS.contains ext = false then
          .error ("Invalid file type. Expected " ++
            String.intercalate " or " ALLOWED_HTML_EXTENSIONS ++ ", got " ++ ext)
        else if maxHtmlSize < f.size then
          .error ("HTML file too large. Maximum size is " ++ toString (mbRound maxHtmlSize) ++ "MB")
        else .ok ()
      else if type = "zip" then
        if ALLOWED_ZIP_EXTENSIONS.contains ext = false then
          .error ("Invalid file type. Expected " ++
            String.intercalate " or " ALLOWED_ZIP_EXTENSIONS ++ ", got " ++ ext)
        else if maxZipSize < f.size then
          .error ("ZIP file too large. Maximum size is " ++ toString (mbRound maxZipSize) ++ "MB")
        else .ok ()
      else .error "Invalid upload type. Must be \"html\" or \"zip\""

/-- `validateFile` at the default size ceilings, as `processUpload` uses it. -/
def validateFile (file : Option MulterFile) (type : String) : Except String Unit :=
  validateFileCfg MAX_HTML_SIZE MAX_ZIP_SIZE file type

/-- The directory roots of `StorageManager` (`storage.js`), with the
module's `__dirname` modelled as `/app`. -/
def sitesDir : String := pathJoin "/app" "sites"

/-- The temp directory root of `StorageManager`. -/
def tmpDir : String := pathJoin "/app" "tmp"

/-- Embedding of `StorageManager.getSiteDir`. -/
def getSiteDir (userId siteId : String) : String :=
  pathJoin (pathJoin sitesDir userId) siteId

/-- Embedding of `StorageManager.getTempFilePath`. -/
def getTempFilePath (filename : String) : String :=
  pathJoin tmpDir filename

/-- Embedding of `StorageManager.writeFile`: join the file name onto the
site directory, check that the normalized path still starts with the site
directory, and only then write.  Returns the written path and the write
event. -/
def storageWriteFile (userId siteId fileName content : String) :
    Except String (String × List FsEvent) :=
  let siteDir := getSiteDir userId siteId
  let filePath := pathJoin siteDir fileName
  let normalizedPath := pathNormalize filePath
  if strStartsWith normalizedPath siteDir then .ok (filePath, [.writeFile filePath content])
  else .error "Invalid file path: path traversal detected"

/-- The path-safety test of `UploadProcessor.extractZip` on one entry
name: the normalized path must not contain `".."` (a substring test, via
`String.prototype.includes`) and must not be absolute. -/
def safeEntryPath (name : String) : Bool :=
  let normalizedPath := pathNormalize name
  !(strIncludes normalizedPath "..") && !(pathIsAbsolute normalizedPath)

/-- The extension test of `UploadProcessor.extractZip` on one entry name. -/
def allowedZipContentExt (name : String) : Bool :=
  ALLOWED_ZIP_CONTENT.contains (lowerStr (extname name))

/-- A staged write performed by the extractor: which entry it was for,
where it landed under the staging directory, and the bytes streamed. -/
structure StagedWrite where
  fileName : String
  outputPath : String
  bytes : String
deriving DecidableEq, Repr

/-- The extractor's accumulated state: the `extractedFiles` array, the
`hasIndexHtml` flag, and the staged writes performed so far. -/
structure ExtractState where
  files : List String
  hasIndexHtml : Bool
  writes : List StagedWrite
deriving DecidableEq, Repr

/-- The initial extractor state. -/
def initExtractState : ExtractState := ⟨[], false, []⟩

/-- Embedding of the per-entry body of `UploadProcessor.extractZip`:
directory entries (name ending in `/`) are skipped; an entry whose
normalized name contains `".."` or is absolute rejects the archive; an
entry with an extension outside `ALLOWED_ZIP_CONTENT` rejects the
archive; otherwise the `index.html` base-name check runs and the entry is
streamed beneath the staging directory.  `some msg` aborts the whole
extraction. -/
def extractStep (extractDir : String) (st : ExtractState) (e : ZipEntry) :
    ExtractState × Option String :=
  if endsSlashChars e.fileName.data then (st, none)
  else if safeEntryPath e.fileName = false then
    (st, some ("Invalid file path in ZIP: " ++ e.fileName))
  else if allowedZipContentExt e.fileName = false then
    (st, some ("Unsupported file type in ZIP: " ++ e.fileName ++
      " (" ++ lowerStr (extname e.fileName) ++ ")"))
  else
    (⟨st.files ++ [e.fileName],
      st.hasIndexHtml || (lowerStr (basename e.fileName) == "index.html"),
      st.writes ++ [⟨e.fileName, pathJoin extractDir e.fileName, render e.content⟩]⟩, none)

/-- Embedding of the entry loop of `UploadProcessor.extractZip`: entries
are processed in archive order (`lazyEntries` with one `readEntry` per
completed entry) and the first rejection stops the loop, keeping the
writes already performed. -/
def extractRun (extractDir : String) : ExtractState → List ZipEntry → ExtractState × Option String
  | st, [] => (st, none)
  | st, e :: rest =>
    match extractStep extractDir st e with
    | (st', none) => extractRun extractDir st' rest
    | (st', some msg) => (st', some msg)

/-- The `ExtractionResult` resolved by `extractZip`. -/
structure ExtractionResult where
  files : List String
  hasIndexHtml : Bool
deriving DecidableEq, Repr

/-- Embedding of `UploadProcessor.extractZip`: run the entry loop and, at
the archive's `end` event, fail unless an `index.html` entry was seen. -/
def extractZip (entries : List ZipEntry) (extractDir : String) :
    Except String ExtractionResult :=
  match extractRun extractDir initExtractState entries with
  | (_, some msg) => .error msg
  | (st, none) =>
    if st.hasIndexHtml = false then .error "ZIP file must contain an index.html file"
    else .ok ⟨st.files, st.hasIndexHtml⟩

/-- The staging writes of an extraction, as trace events. -/
def stagingEvents (ws : List StagedWrite) : List FsEvent :=
  ws.map (fun w => .writeFile w.outputPath w.bytes)

/-- The `.html`/`.htm` test of the deployment loop in
`UploadProcessor.processZipUpload`. -/
def isHtmlFileName (fn : String) : Bool :=
  lowerStr (extname fn) = ".html" || lowerStr (extname fn) = ".htm"

/-- Content of a staged file, read back through the archive entry that the
extractor streamed to that name (the extractor wrote exactly the entry's
bytes, so the staging filesystem is modelled by the entry list). -/
def lookupEntryContent (entries : List ZipEntry) (fn : String) : List HtmlToken :=
  match entries.find? (fun e => e.fileName == fn) with
  | some e => e.content
  | none => []

/-- Embedding of the deployment loop of `UploadProcessor.processZipUpload`
(the per-file body after extraction succeeds): for each extracted name,
stat the staged file and add its size to the total, then either sanitize
and write (for `.html`/`.htm`) or copy the bytes unchanged into the site
directory, and record the processed name.  No containment check is made on
the destination path.  Returns the accumulated `totalSize`, the
`processedFiles` list, and the write events. -/
def deployLoop (tempDir siteDir : String) (entries : List ZipEntry) :
    List String → Nat × List String × List FsEvent
  | [] => (0, [], [])
  | fn :: rest =>
    let filePath := pathJoin tempDir fn
    let staged := render (lookupEntryContent entries fn)
    let statSize := utf8Len staged
    let destPath := pathJoin siteDir fn
    let ev :=
      if isHtmlFileName fn then
        FsEvent.writeFile destPath (render (sanitizeTokens (lookupEntryContent entries fn)))
      else
        FsEvent.copyFile filePath destPath staged
    let r := deployLoop tempDir siteDir entries rest
    (statSize + r.1, fn :: r.2.1, ev :: r.2.2)

/-- Modelled from the spec: the Deployment Writer invariant of
section 4.4 — before every write the resolved destination path must lie
within the site directory root, and a violation fails the operation with a
path-traversal error and aborts the remaining writes.  This checked
variant of `deployLoop` follows the specification's words (with the check
and error message of `StorageManager.writeFile`); the source's ZIP
deployment loop performs no such check. -/
def deployLoopChecked (tempDir siteDir : String) (entries : List ZipEntry) :
    List String → Except String (Nat × List String × List FsEvent)
  | [] => .ok (0, [], [])
  | fn :: rest =>
    let destPath := pathJoin siteDir fn
    if strStartsWith (pathNormalize destPath) siteDir = false then
      .error "Invalid file path: path traversal detected"
    else
      let filePath := pathJoin tempDir fn
      let staged := render (lookupEntryContent entries fn)
      let statSize := utf8Len staged
      let ev :=
        if isHtmlFileName fn then
          FsEvent.writeFile destPath (render (sanitizeTokens (lookupEntryContent entries fn)))
        else
          FsEvent.copyFile filePath destPath staged
      match deployLoopChecked tempDir siteDir entries rest with
      | .error msg => .error msg
      | .ok r => .ok (statSize + r.1, fn :: r.2.1, ev :: r.2.2)

/-- The `DeploymentSummary` returned to the caller.  The single-HTML path
returns no `hasIndexHtml` field, modelled as `none`. -/
structure DeploymentSummary where
  type : String
  files : List String
  size : Nat
  hasIndexHtml : Option Bool
deriving DecidableEq, Repr

/-- The archive entries of an uploaded file; opening a non-archive as a
ZIP is not modelled (callers branch on the declared type first). -/
def zipEntriesOf : UploadContent → List ZipEntry
  | .zipArchive es => es
  | .htmlDoc _ => []

/-- The text of an uploaded file read as UTF-8; reading archive bytes as
text is modelled as an empty document. -/
def readUtf8 : UploadContent → List HtmlToken
  | .htmlDoc toks => toks
  | .zipArchive _ => []

/-- Embedding of `UploadProcessor.processHtmlUpload`: read the uploaded
file, sanitize it, store it as `index.html` through
`StorageManager.writeFile`, and report the sanitized byte length. -/
def processHtmlUpload (f : MulterFile) (userId siteId : String) :
    Except String DeploymentSummary × List FsEvent :=
  let sanitizedHtml := render (sanitizeTokens (readUtf8 f.content))
  match storageWriteFile userId siteId "index.html" sanitizedHtml with
  | .error e => (.error e, [])
  | .ok (_, evs) =>
    (.ok { type := "html", files := ["index.html"],
           size := utf8Len sanitizedHtml, hasIndexHtml := none }, evs)

/-- Embedding of `UploadProcessor.processZipUpload`: make a staging
directory under the temp root (its name includes `Date.now()`, passed here
as `now`), extract the archive into it, deploy the extracted files into
the site directory, and in a `finally` block remove the staging directory
on every exit path.  The extraction is inlined from `extractZip` so that
its staged writes appear in the trace. -/
def processZipUpload (f : MulterFile) (userId siteId : String) (now : Nat) :
    Except String DeploymentSummary × List FsEvent :=
  let entries := zipEntriesOf f.content
  let tempDir := getTempFilePath ("extract_" ++ siteId ++ "_" ++ toString now)
  match extractRun tempDir initExtractState entries with
  | (st, some msg) => (.error msg, stagingEvents st.writes ++ [.rmTree tempDir])
  | (st, none) =>
    if st.hasIndexHtml = false then
      (.error "ZIP file must contain an index.html file",
       stagingEvents st.writes ++ [.rmTree tempDir])
    else
      let siteDir := getSiteDir userId siteId
      let r := deployLoop tempDir siteDir entries st.files
      (.ok { type := "zip", files := r.2.1, size := r.1, hasIndexHtml := some st.hasIndexHtml },
       stagingEvents st.writes ++ r.2.2 ++ [.rmTree tempDir])

/-- Embedding of `UploadProcessor.processUpload`: validate, then branch on
the declared type inside a `try` whose `finally` unlinks the uploaded temp
file.  The call to `validateFile` precedes the `try`, so a validation
failure returns before any cleanup runs and produces an empty trace. -/
def processUpload (file : Option MulterFile) (type userId siteId : String) (now : Nat) :
    Except String DeploymentSummary × List FsEvent :=
  match validateFile file type with
  | .error e => (.error e, [])
  | .ok _ =>
    match file with
    | none => (.error "No file provided", [])
    | some f =>
      let r :=
        if type = "html" then processHtmlUpload f userId siteId
        else if type = "zip" then processZipUpload f userId siteId now
        else (.error "Invalid upload type", [])
      (r.1, r.2 ++ [.unlink f.path])

/-- A segment that survives normalization unchanged: nonempty and neither
`.` nor `..`. -/
def normalSeg (s : List Char) : Bool :=
  !(s = []) && !(s = ['.']) && !(s = ['.', '.'])

/-- A directory string in normal form: absolute, with at least one
segment, every segment nonempty and free of `.`/`..`.  The storage roots
and the site directories they generate all have this shape. -/
def goodDir (d : String) : Bool :=
  isAbsChars d.data && (splitSlash d.data.tail).all normalSeg

/-- A name usable as one fresh path segment (the shape of user and site
identifiers): nonempty, no separator, not `.` or `..`. -/
def cleanSegName (n : String) : Bool :=
  normalSeg n.data && !(n.data.contains '/')

/-- Tracks whether resolving `segs` on top of a stack of depth `d` ever
pops below the starting stack: a `..` arriving at local depth zero. -/
def hitsBottom : Nat → List (List Char) → Bool
  | _, [] => false
  | d, s :: rest =>
    if s = [] ∨ s = ['.'] then hitsBottom d rest
    else if s = ['.', '.'] then
      match d with
      | 0 => true
      | d' + 1 => hitsBottom d' rest
    else hitsBottom (d + 1) rest

/-- True exactly when an `Except` is an error. -/
def isErr {α : Type} : Except String α → Bool
  | .error _ => true
  | .ok _ => false

/-- An archive entry that passes the extractor's per-entry checks without
rejecting: a directory entry, or a file entry that is both path-safe and
of an allowed content extension. -/
def entryOk (e : ZipEntry) : Bool :=
  endsSlashChars e.fileName.data ||
    (safeEntryPath e.fileName && allowedZipContentExt e.fileName)

/-- A file name the extractor has accepted and recorded: path-safe, not a
directory name, allowed extension. -/
def acceptedName (fn : String) : Bool :=
  safeEntryPath fn && !(endsSlashChars fn.data) && allowedZipContentExt fn

/-- A text upload whose extension fails validation for the `html` type. -/
def fileWrongExt : MulterFile :=
  ⟨"notes.txt", 10, "/app/tmp/upload_1", .htmlDoc []⟩

/-- A well-formed one-page ZIP upload. -/
def fileSmallZip : MulterFile :=
  ⟨"site.zip", 100, "/app/tmp/up2", .zipArchive [⟨"index.html", [.text "hi"]⟩]⟩

/-- A ZIP upload whose only page carries a `<script>` element, so
sanitizing shrinks it. -/
def fileScriptZip : MulterFile :=
  ⟨"bundle.zip", 1000, "/app/tmp/up9",
   .zipArchive [⟨"index.html", [.openTag "script" [], .text "alert(1)", .closeTag "script"]⟩]⟩

/-- A ZIP upload with an entry name that normalization strips a `..`
segment from. -/
def fileDotDotZip : MulterFile :=
  ⟨"b.zip", 50, "/app/tmp/up10",
   .zipArchive [⟨"index.html", [.text "hi"]⟩, ⟨"a/b/../c.html", [.text "x"]⟩]⟩

/-!
Theorems.  First the sanitizer (claims C7 and C8), then the validator
(claim C6), then the extractor (claims C3, C4, C5, C10), then paths and
deployment (claims C1, C9), then the orchestrator's cleanup (claim C2).
-/

theorem allowedTags_all_fixed :
    allowedTags.all (fun t => (lowerStr t == t) && (tagTransform t == t)) = true := by
  decide

theorem mem_allowedTags_fixed (t : String) (hm : t ∈ allowedTags) :
    lowerStr t = t ∧ tagTransform t = t := by
  have h2 := List.all_eq_true.mp allowedTags_all_fixed t hm
  rcases Bool.and_eq_true_iff.mp h2 with ⟨ha, hb⟩
  exact ⟨eq_of_beq ha, eq_of_beq hb⟩

theorem filterAttrs_filterAttrs (t : String) (l : List HtmlAttr) :
    filterAttrs t (filterAttrs t l) = filterAttrs t l :=
  List.filter_eq_self.mpr (fun _ ha => List.of_mem_filter ha)

/-- C8: the sanitizer is idempotent — sanitizing already-sanitized content
changes nothing, for every input document. -/
theorem sanitize_idempotent (toks : List HtmlToken) :
    sanitizeTokens (sanitizeTokens toks) = sanitizeTokens toks := by
  induction toks with
  | nil => rfl
  | cons tok rest ih =>
    cases tok with
    | text s => simp [sanitizeTokens, ih]
    | openTag t attrs =>
      by_cases hm : tagTransform (lowerStr t) ∈ allowedTags
      · obtain ⟨hl, ht⟩ := mem_allowedTags_fixed _ hm
        simp [sanitizeTokens, hm, hl, ht, filterAttrs_filterAttrs, ih]
      · simp [sanitizeTokens, hm, ih]
    | closeTag t =>
      by_cases hm : tagTransform (lowerStr t) ∈ allowedTags
      · obtain ⟨hl, ht⟩ := mem_allowedTags_fixed _ hm
        simp [sanitizeTokens, hm, hl, ht, ih]
      · simp [sanitizeTokens, hm, ih]

/-- C7: the sanitizer rewrites `script`, `iframe`, `object` and `embed`
elements into inert `span`/`div` containers instead of deleting them,
keeps only allowlisted attributes on those containers (at most `class`
and `id`, neither executable), sends `<script>alert(1)</script>` to a
non-script element, and strips the `javascript:` `src` from an `img`. -/
theorem script_neutralization :
    (∀ attrs rest, sanitizeTokens (HtmlToken.openTag "script" attrs :: rest) =
        HtmlToken.openTag "span" (filterAttrs "span" attrs) :: sanitizeTokens rest) ∧
    (∀ attrs rest, sanitizeTokens (HtmlToken.openTag "iframe" attrs :: rest) =
        HtmlToken.openTag "div" (filterAttrs "div" attrs) :: sanitizeTokens rest) ∧
    (∀ attrs rest, sanitizeTokens (HtmlToken.openTag "object" attrs :: rest) =
        HtmlToken.openTag "div" (filterAttrs "div" attrs) :: sanitizeTokens rest) ∧
    (∀ attrs rest, sanitizeTokens (HtmlToken.openTag "embed" attrs :: rest) =
        HtmlToken.openTag "div" (filterAttrs "div" attrs) :: sanitizeTokens rest) ∧
    (∀ attrs a, a ∈ filterAttrs "span" attrs → a.name = "class" ∨ a.name = "id") ∧
    (∀ attrs a, a ∈ filterAttrs "div" attrs → a.name = "class" ∨ a.name = "id") ∧
    ("span" ≠ "script" ∧
      sanitizeTokens
          [HtmlToken.openTag "script" [], HtmlToken.text "alert(1)", HtmlToken.closeTag "script"] =
        [HtmlToken.openTag "span" [], HtmlToken.text "alert(1)", HtmlToken.closeTag "span"]) ∧
    sanitizeTokens [HtmlToken.openTag "img" [⟨"src", "javascript:alert(1)"⟩]] =
      [HtmlToken.openTag "img" []] := by
  refine ⟨fun attrs rest => rfl, fun attrs rest => rfl, fun attrs rest => rfl,
    fun attrs rest => rfl, ?_, ?_, ⟨by decide, by decide⟩, by decide⟩
  · intro attrs a ha
    have h := List.of_mem_filter ha
    rcases Bool.and_eq_true_iff.mp h with ⟨h1, _⟩
    rw [Bool.or_eq_true] at h1
    rcases h1 with h1 | h1
    · have : a.name ∈ wildcardAllowedAttributes := by simpa using h1
      simpa [wildcardAllowedAttributes] using this
    · exact absurd h1 (by simp [alookup, tagAllowedAttributes])
  · intro attrs a ha
    have h := List.of_mem_filter ha
    rcases Bool.and_eq_true_iff.mp h with ⟨h1, _⟩
    rw [Bool.or_eq_true] at h1
    rcases h1 with h1 | h1
    · have : a.name ∈ wildcardAllowedAttributes := by simpa using h1
      simpa [wildcardAllowedAttributes] using this
    · exact absurd h1 (by simp [alookup, tagAllowedAttributes])

theorem script_neutralization_witness :
    (⟨"class", "x"⟩ : HtmlAttr).name = "class" ∨ (⟨"class", "x"⟩ : HtmlAttr).name = "id" :=
  script_neutralization.2.2.2.2.1 [⟨"class", "x"⟩] ⟨"class", "x"⟩ (by decide)

/-- C6: for every configured ceiling, a file of `max + 1` bytes for its
declared type fails validation and a file of exactly `max` bytes passes
(extension assumed allowed for the type); the four failure conditions —
missing file, wrong extension, size exceeded, unknown declared type —
carry four pairwise-distinct reasons; and a validation failure performs
no storage operation (the upload trace is empty). -/
theorem validate_size_gate_and_reasons :
    (∀ mh mz name p c,
        ALLOWED_HTML_EXTENSIONS.contains (lowerStr (extname name)) = true →
        isErr (validateFileCfg mh mz (some ⟨name, mh + 1, p, c⟩) "html") = true ∧
        validateFileCfg mh mz (some ⟨name, mh, p, c⟩) "html" = .ok ()) ∧
    (∀ mh mz name p c,
        ALLOWED_ZIP_EXTENSIONS.contains (lowerStr (extname name)) = true →
        isErr (validateFileCfg mh mz (some ⟨name, mz + 1, p, c⟩) "zip") = true ∧
        validateFileCfg mh mz (some ⟨name, mz, p, c⟩) "zip" = .ok ()) ∧
    (validateFile none "html" = .error "No file provided" ∧
      validateFile (some fileWrongExt) "html" =
        .error "Invalid file type. Expected .html or .htm, got .txt" ∧
      validateFile (some ⟨"a.html", MAX_HTML_SIZE + 1, "/t", .htmlDoc []⟩) "html" =
        .error "HTML file too large. Maximum size is 5MB" ∧
      validateFile (some ⟨"a.html", 1, "/t", .htmlDoc []⟩) "tar" =
        .error "Invalid upload type. Must be \"html\" or \"zip\"" ∧
      ("No file provided" ≠ "Invalid file type. Expected .html or .htm, got .txt" ∧
       "No file provided" ≠ "HTML file too large. Maximum size is 5MB" ∧
       "No file provided" ≠ "Invalid upload type. Must be \"html\" or \"zip\"" ∧
       "Invalid file type. Expected .html or .htm, got .txt" ≠
         "HTML file too large. Maximum size is 5MB" ∧
       "Invalid file type. Expected .html or .htm, got .txt" ≠
         "Invalid upload type. Must be \"html\" or \"zip\"" ∧
       "HTML file too large. Maximum size is 5MB" ≠
         "Invalid upload type. Must be \"html\" or \"zip\"")) ∧
    (∀ file type userId siteId now, isErr (validateFile file type) = true →
        (processUpload file type userId siteId now).2 = []) := by
  refine ⟨?_, ?_, ⟨by rfl, by rfl, by rfl, by rfl, by decide⟩, ?_⟩
  · intro mh mz name p c hext
    have hn : ¬ (name = "") := by
      intro h
      subst h
      exact absurd hext (by decide)
    have hmem : lowerStr (extname name) ∈ ALLOWED_HTML_EXTENSIONS := by simpa using hext
    constructor
    · simp [validateFileCfg, hn, hmem, Nat.lt_succ_self, isErr]
    · simp [validateFileCfg, hn, hmem, Nat.lt_irrefl]
  · intro mh mz name p c hext
    have hn : ¬ (name = "") := by
      intro h
      subst h
      exact absurd hext (by decide)
    have hz : lowerStr (extname name) = ".zip" := by
      have hmem : lowerStr (extname name) ∈ ALLOWED_ZIP_EXTENSIONS := by simpa using hext
      simpa [ALLOWED_ZIP_EXTENSIONS] using hmem
    have hnm : ¬ (lowerStr (extname name) ∈ ALLOWED_HTML_EXTENSIONS) := by
      rw [hz]
      decide
    have hmem : lowerStr (extname name) ∈ ALLOWED_ZIP_EXTENSIONS := by simpa using hext
    constructor
    · simp [validateFileCfg, hn, hnm, hmem, Nat.lt_succ_self, isErr]
    · simp [validateFileCfg, hn, hnm, hmem, Nat.lt_irrefl]
  · intro file type userId siteId now hv
    rcases h : validateFile file type with e | u
    · simp [processUpload, h]
    · rw [h] at hv
      simp [isErr] at hv

theorem validate_size_gate_witness :
    isErr (validateFileCfg 5000000 25000000 (some ⟨"a.html", 5000001, "/t", .htmlDoc []⟩) "html") = true ∧
    validateFileCfg 5000000 25000000 (some ⟨"a.html", 5000000, "/t", .htmlDoc []⟩) "html" = .ok () :=
  validate_size_gate_and_reasons.1 5000000 25000000 "a.html" "/t" (.htmlDoc []) (by decide)

theorem bool_true_of_not_false {b : Bool} (h : ¬ b = false) : b = true := by
  cases b
  · exact absurd rfl h
  · rfl

theorem extractRun_writes_invariant (dir : String) :
    ∀ (l : List ZipEntry) (st : ExtractState),
      (∀ w ∈ st.writes, acceptedName w.fileName = true) →
      ∀ w ∈ (extractRun dir st l).1.writes, acceptedName w.fileName = true := by
  intro l
  induction l with
  | nil => intro st h w hw; exact h w hw
  | cons e rest ih =>
    intro st h w hw
    by_cases hd : endsSlashChars e.fileName.data = true
    · have hstep : extractStep dir st e = (st, none) := by simp [extractStep, hd]
      rw [extractRun, hstep] at hw
      exact ih st h w hw
    · by_cases hs : safeEntryPath e.fileName = false
      · have hstep : extractStep dir st e =
            (st, some ("Invalid file path in ZIP: " ++ e.fileName)) := by
          simp [extractStep, hd, hs]
        rw [extractRun, hstep] at hw
        exact h w hw
      · by_cases hx : allowedZipContentExt e.fileName = false
        · have hstep : extractStep dir st e =
              (st, some ("Unsupported file type in ZIP: " ++ e.fileName ++
                " (" ++ lowerStr (extname e.fileName) ++ ")")) := by
            simp [extractStep, hd, hs, hx]
          rw [extractRun, hstep] at hw
          exact h w hw
        · have hacc : acceptedName e.fileName = true := by
            simp [acceptedName, bool_true_of_not_false hs, bool_true_of_not_false hx, hd]
          have hstep : extractStep dir st e =
              (⟨st.files ++ [e.fileName],
                st.hasIndexHtml || (lowerStr (basename e.fileName) == "index.html"),
                st.writes ++ [⟨e.fileName, pathJoin dir e.fileName, render e.content⟩]⟩, none) := by
            simp [extractStep, hd, hs, hx]
          rw [extractRun, hstep] at hw
          refine ih _ ?_ w hw
          intro w' hw'
          rcases List.mem_append.mp hw' with hl | hr
          · exact h w' hl
          · rcases List.mem_singleton.mp hr with rfl
            exact hacc

theorem extractRun_files_invariant (dir : String) :
    ∀ (l : List ZipEntry) (st : ExtractState),
      (∀ fn ∈ st.files, acceptedName fn = true) →
      ∀ fn ∈ (extractRun dir st l).1.files, acceptedName fn = true := by
  intro l
  induction l with
  | nil => intro st h fn hfn; exact h fn hfn
  | cons e rest ih =>
    intro st h fn hfn
    by_cases hd : endsSlashChars e.fileName.data = true
    · have hstep : extractStep dir st e = (st, none) := by simp [extractStep, hd]
      rw [extractRun, hstep] at hfn
      exact ih st h fn hfn
    · by_cases hs : safeEntryPath e.fileName = false
      · have hstep : extractStep dir st e =
            (st, some ("Invalid file path in ZIP: " ++ e.fileName)) := by
          simp [extractStep, hd, hs]
        rw [extractRun, hstep] at hfn
        exact h fn hfn
      · by_cases hx : allowedZipContentExt e.fileName = false
        · have hstep : extractStep dir st e =
              (st, some ("Unsupported file type in ZIP: " ++ e.fileName ++
                " (" ++ lowerStr (extname e.fileName) ++ ")")) := by
            simp [extractStep, hd, hs, hx]
          rw [extractRun, hstep] at hfn
          exact h fn hfn
        · have hacc : acceptedName e.fileName = true := by
            simp [acceptedName, bool_true_of_not_false hs, bool_true_of_not_false hx, hd]
          have hstep : extractStep dir st e =
              (⟨st.files ++ [e.fileName],
                st.hasIndexHtml || (lowerStr (basename e.fileName) == "index.html"),
                st.writes ++ [⟨e.fileName, pathJoin dir e.fileName, render e.content⟩]⟩, none) := by
            simp [extractStep, hd, hs, hx]
          rw [extractRun, hstep] at hfn
          refine ih _ ?_ fn hfn
          intro fn' hfn'
          rcases List.mem_append.mp hfn' with hl | hr
          · exact h fn' hl
          · rcases List.mem_singleton.mp hr with rfl
            exact hacc

theorem extractRun_err_of_bad (dir : String) :
    ∀ (l : List ZipEntry) (st : ExtractState) (e : ZipEntry), e ∈ l →
      endsSlashChars e.fileName.data = false →
      (safeEntryPath e.fileName = false ∨ allowedZipContentExt e.fileName = false) →
      (extractRun dir st l).2.isSome = true := by
  intro l
  induction l with
  | nil => intro st e he; exact absurd he (List.not_mem_nil e)
  | cons h0 rest ih =>
    intro st e he hend hbad
    by_cases hd : endsSlashChars h0.fileName.data = true
    · have hne : e ≠ h0 := by
        intro hh
        rw [hh] at hend
        rw [hend] at hd
        exact absurd hd (by simp)
      have hstep : extractStep dir st h0 = (st, none) := by simp [extractStep, hd]
      rw [extractRun, hstep]
      exact ih st e (by rcases List.mem_cons.mp he with h' | h'; exact absurd h' hne; exact h') hend hbad
    · by_cases hs : safeEntryPath h0.fileName = false
      · have hstep : extractStep dir st h0 =
            (st, some ("Invalid file path in ZIP: " ++ h0.fileName)) := by
          simp [extractStep, hd, hs]
        rw [extractRun, hstep]
        rfl
      · by_cases hx : allowedZipContentExt h0.fileName = false
        · have hstep : extractStep dir st h0 =
              (st, some ("Unsupported file type in ZIP: " ++ h0.fileName ++
                " (" ++ lowerStr (extname h0.fileName) ++ ")")) := by
            simp [extractStep, hd, hs, hx]
          rw [extractRun, hstep]
          rfl
        · have hne : e ≠ h0 := by
            intro hh
            rcases hbad with hb | hb
            · rw [hh] at hb; exact hs hb
            · rw [hh] at hb; exact hx hb
          have hstep : extractStep dir st h0 =
              (⟨st.files ++ [h0.fileName],
                st.hasIndexHtml || (lowerStr (basename h0.fileName) == "index.html"),
                st.writes ++ [⟨h0.fileName, pathJoin dir h0.fileName, render h0.content⟩]⟩, none) := by
            simp [extractStep, hd, hs, hx]
          rw [extractRun, hstep]
          exact ih _ e (by rcases List.mem_cons.mp he with h' | h'; exact absurd h' hne; exact h') hend hbad

theorem extractRun_ok_prefix (dir : String) :
    ∀ (pre : List ZipEntry) (st : ExtractState) (l : List ZipEntry),
      (∀ e ∈ pre, entryOk e = true) →
      ∃ st', extractRun dir st (pre ++ l) = extractRun dir st' l := by
  intro pre
  induction pre with
  | nil => intro st l _; exact ⟨st, rfl⟩
  | cons h0 rest ih =>
    intro st l hok
    have hok0 : entryOk h0 = true := hok h0 (List.mem_cons_self h0 rest)
    have hokr : ∀ e ∈ rest, entryOk e = true := fun e he => hok e (List.mem_cons_of_mem h0 he)
    by_cases hd : endsSlashChars h0.fileName.data = true
    · have hstep : extractStep dir st h0 = (st, none) := by simp [extractStep, hd]
      have : extractRun dir st ((h0 :: rest) ++ l) = extractRun dir st (rest ++ l) := by
        rw [List.cons_append, extractRun, hstep]
      rw [this]
      exact ih st l hokr
    · have hsx : safeEntryPath h0.fileName = true ∧ allowedZipContentExt h0.fileName = true := by
        rcases (by simpa [entryOk] using hok0 :
            endsSlashChars h0.fileName.data = true ∨
              safeEntryPath h0.fileName = true ∧ allowedZipContentExt h0.fileName = true) with
          hcase | hcase
        · exact absurd hcase hd
        · exact hcase
      have hs : ¬ safeEntryPath h0.fileName = false := by simp [hsx.1]
      have hx : ¬ allowedZipContentExt h0.fileName = false := by simp [hsx.2]
      have hstep : extractStep dir st h0 =
          (⟨st.files ++ [h0.fileName],
            st.hasIndexHtml || (lowerStr (basename h0.fileName) == "index.html"),
            st.writes ++ [⟨h0.fileName, pathJoin dir h0.fileName, render h0.content⟩]⟩, none) := by
        simp [extractStep, hd, hs, hx]
      have : extractRun dir st ((h0 :: rest) ++ l) = extractRun dir
          ⟨st.files ++ [h0.fileName],
            st.hasIndexHtml || (lowerStr (basename h0.fileName) == "index.html"),
            st.writes ++ [⟨h0.fileName, pathJoin dir h0.fileName, render h0.content⟩]⟩ (rest ++ l) := by
        rw [List.cons_append, extractRun, hstep]
      rw [this]
      exact ih _ l hokr

theorem extractRun_index_origin (dir : String) :
    ∀ (l : List ZipEntry) (st st' : ExtractState) (o : Option String),
      extractRun dir st l = (st', o) → st'.hasIndexHtml = true →
      st.hasIndexHtml = true ∨
        ∃ e ∈ l, endsSlashChars e.fileName.data = false ∧
          lowerStr (basename e.fileName) = "index.html" := by
  intro l
  induction l with
  | nil =>
    intro st st' o hrun hflag
    have : st = st' := congrArg Prod.fst hrun
    rw [this]
    exact Or.inl hflag
  | cons e rest ih =>
    intro st st' o hrun hflag
    by_cases hd : endsSlashChars e.fileName.data = true
    · have hstep : extractStep dir st e = (st, none) := by simp [extractStep, hd]
      rw [extractRun, hstep] at hrun
      rcases ih st st' o hrun hflag with hl | ⟨e', he', h1, h2⟩
      · exact Or.inl hl
      · exact Or.inr ⟨e', List.mem_cons_of_mem e he', h1, h2⟩
    · by_cases hs : safeEntryPath e.fileName = false
      · have hstep : extractStep dir st e =
            (st, some ("Invalid file path in ZIP: " ++ e.fileName)) := by
          simp [extractStep, hd, hs]
        rw [extractRun, hstep] at hrun
        have : st = st' := congrArg Prod.fst hrun
        rw [this]
        exact Or.inl hflag
      · by_cases hx : allowedZipContentExt e.fileName = false
        · have hstep : extractStep dir st e =
              (st, some ("Unsupported file type in ZIP: " ++ e.fileName ++
                " (" ++ lowerStr (extname e.fileName) ++ ")")) := by
            simp [extractStep, hd, hs, hx]
          rw [extractRun, hstep] at hrun
          have : st = st' := congrArg Prod.fst hrun
          rw [this]
          exact Or.inl hflag
        · by_cases hidx : lowerStr (basename e.fileName) = "index.html"
          · have hdf : endsSlashChars e.fileName.data = false := by
              cases hbe : endsSlashChars e.fileName.data
              · rfl
              · exact absurd hbe hd
            exact Or.inr ⟨e, List.mem_cons_self e rest, hdf, hidx⟩
          · have hstep : extractStep dir st e =
                (⟨st.files ++ [e.fileName],
                  st.hasIndexHtml || (lowerStr (basename e.fileName) == "index.html"),
                  st.writes ++ [⟨e.fileName, pathJoin dir e.fileName, render e.content⟩]⟩, none) := by
              simp [extractStep, hd, hs, hx]
            rw [extractRun, hstep] at hrun
            rcases ih _ st' o hrun hflag with hl | ⟨e', he', h1, h2⟩
            · have : st.hasIndexHtml = true := by
                have hbeq : (lowerStr (basename e.fileName) == "index.html") = false := by
                  simp [hidx]
                simpa [hbeq] using hl
              exact Or.inl this
            · exact Or.inr ⟨e', List.mem_cons_of_mem e he', h1, h2⟩

theorem extractRun_no_index (dir : String) :
    ∀ (l : List ZipEntry) (st : ExtractState),
      (∀ e ∈ l, entryOk e = true) →
      (∀ e ∈ l, endsSlashChars e.fileName.data = false →
        lowerStr (basename e.fileName) ≠ "index.html") →
      ∃ st', extractRun dir st l = (st', none) ∧ st'.hasIndexHtml = st.hasIndexHtml := by
  intro l
  induction l with
  | nil => intro st _ _; exact ⟨st, rfl, rfl⟩
  | cons e rest ih =>
    intro st hok hni
    have hok0 : entryOk e = true := hok e (List.mem_cons_self e rest)
    have hokr : ∀ e' ∈ rest, entryOk e' = true := fun e' he' => hok e' (List.mem_cons_of_mem e he')
    have hnir : ∀ e' ∈ rest, endsSlashChars e'.fileName.data = false →
        lowerStr (basename e'.fileName) ≠ "index.html" :=
      fun e' he' => hni e' (List.mem_cons_of_mem e he')
    by_cases hd : endsSlashChars e.fileName.data = true
    · have hstep : extractStep dir st e = (st, none) := by simp [extractStep, hd]
      have heq : extractRun dir st (e :: rest) = extractRun dir st rest := by
        rw [extractRun, hstep]
      rw [heq]
      exact ih st hokr hnir
    · have hdf : endsSlashChars e.fileName.data = false := by
        cases hbe : endsSlashChars e.fileName.data
        · rfl
        · exact absurd hbe hd
      have hsx : safeEntryPath e.fileName = true ∧ allowedZipContentExt e.fileName = true := by
        rcases (by simpa [entryOk] using hok0 :
            endsSlashChars e.fileName.data = true ∨
              safeEntryPath e.fileName = true ∧ allowedZipContentExt e.fileName = true) with
          hcase | hcase
        · exact absurd hcase hd
        · exact hcase
      have hs : ¬ safeEntryPath e.fileName = false := by simp [hsx.1]
      have hx : ¬ allowedZipContentExt e.fileName = false := by simp [hsx.2]
      have hbeq : (lowerStr (basename e.fileName) == "index.html") = false := by
        simp [hni e (List.mem_cons_self e rest) hdf]
      have hstep : extractStep dir st e =
          (⟨st.files ++ [e.fileName],
            st.hasIndexHtml,
            st.writes ++ [⟨e.fileName, pathJoin dir e.fileName, render e.content⟩]⟩, none) := by
        simp [extractStep, hd, hs, hx, hbeq]
      have heq : extractRun dir st (e :: rest) = extractRun dir
          ⟨st.files ++ [e.fileName], st.hasIndexHtml,
            st.writes ++ [⟨e.fileName, pathJoin dir e.fileName, render e.content⟩]⟩ rest := by
        rw [extractRun, hstep]
      rw [heq]
      exact ih _ hokr hnir

theorem extractZip_err_of_run_some (entries : List ZipEntry) (dir : String)
    (h : (extractRun dir initExtractState entries).2.isSome = true) :
    isErr (extractZip entries dir) = true := by
  rcases hrun : extractRun dir initExtractState entries with ⟨st, o⟩
  rcases o with _ | msg
  · rw [hrun] at h
    simp at h
  · simp [extractZip, hrun, isErr]

/-- C3: a ZIP entry whose normalized path contains a parent-traversal
segment or is absolute makes the whole extraction fail, and no staged
write is ever performed for such an entry — every write the extractor
performs is for an entry that passed the path-safety check. -/
theorem traversal_rejected_before_write (entries : List ZipEntry) (dir : String) :
    ((∃ e ∈ entries, endsSlashChars e.fileName.data = false ∧
        safeEntryPath e.fileName = false) →
      isErr (extractZip entries dir) = true) ∧
    (∀ w ∈ (extractRun dir initExtractState entries).1.writes,
      safeEntryPath w.fileName = true) := by
  constructor
  · rintro ⟨e, he, hend, hunsafe⟩
    exact extractZip_err_of_run_some entries dir
      (extractRun_err_of_bad dir entries initExtractState e he hend (Or.inl hunsafe))
  · intro w hw
    have hacc := extractRun_writes_invariant dir entries initExtractState
      (by intro w' hw'; exact absurd hw' (List.not_mem_nil w')) w hw
    rcases Bool.and_eq_true_iff.mp hacc with ⟨h1, _⟩
    rcases Bool.and_eq_true_iff.mp h1 with ⟨h2, _⟩
    exact h2

theorem traversal_rejected_before_write_witness :
    isErr (extractZip [⟨"../../etc/passwd", [.text "x"]⟩] "/app/tmp/e") = true :=
  (traversal_rejected_before_write [⟨"../../etc/passwd", [.text "x"]⟩] "/app/tmp/e").1
    ⟨⟨"../../etc/passwd", [.text "x"]⟩, by decide, by decide, by decide⟩

/-- C4: a ZIP extraction succeeds only when some non-directory entry has
base name `index.html` case-insensitively (at any depth), and then the
result's `hasIndexHtml` flag is true; when no such entry exists and every
entry passes the per-entry checks (including the empty archive), the
extraction fails with the `index.html` reason. -/
theorem index_html_required :
    (∀ (entries : List ZipEntry) (dir : String) (r : ExtractionResult),
      extractZip entries dir = .ok r →
      r.hasIndexHtml = true ∧
        ∃ e ∈ entries, endsSlashChars e.fileName.data = false ∧
          lowerStr (basename e.fileName) = "index.html") ∧
    (∀ (entries : List ZipEntry) (dir : String),
      (∀ e ∈ entries, entryOk e = true) →
      (∀ e ∈ entries, endsSlashChars e.fileName.data = false →
        lowerStr (basename e.fileName) ≠ "index.html") →
      extractZip entries dir = .error "ZIP file must contain an index.html file") := by
  constructor
  · intro entries dir r hok
    rcases hrun : extractRun dir initExtractState entries with ⟨st, o⟩
    rcases o with _ | msg
    · by_cases hflag : st.hasIndexHtml = false
      · rw [extractZip, hrun] at hok
        simp [hflag] at hok
      · have hflag' : st.hasIndexHtml = true := bool_true_of_not_false hflag
        have hr : r = ⟨st.files, true⟩ := by
          simp only [extractZip, hrun] at hok
          rw [if_neg hflag] at hok
          have h2 := Except.ok.inj hok
          rw [hflag'] at h2
          exact h2.symm
        constructor
        · rw [hr]
        · rcases extractRun_index_origin dir entries initExtractState st none hrun hflag' with
            hl | hr'
          · exact absurd hl (by simp [initExtractState])
          · exact hr'
    · rw [extractZip, hrun] at hok
      exact absurd hok (by simp)
  · intro entries dir hok hni
    rcases extractRun_no_index dir entries initExtractState hok hni with ⟨st', hrun, hflag⟩
    have hflag' : st'.hasIndexHtml = false := by
      rw [hflag]
      rfl
    rw [extractZip, hrun]
    simp [hflag']

theorem index_html_required_witness :
    extractZip [⟨"style.css", [.text "c"]⟩, ⟨"app.js", [.text "j"]⟩] "/app/tmp/e" =
      .error "ZIP file must contain an index.html file" :=
  index_html_required.2 [⟨"style.css", [.text "c"]⟩, ⟨"app.js", [.text "j"]⟩] "/app/tmp/e"
    (by decide) (by decide)

/-- C5: an archive containing a non-directory entry whose extension lies
outside the permitted content set fails as a whole — no result is
produced, there is no per-file skip — and when every entry before the
offending one passes the per-entry checks, the reported reason names the
offending entry and its extension. -/
theorem disallowed_extension_rejects_archive (entries : List ZipEntry) (dir : String) :
    ((∃ e ∈ entries, endsSlashChars e.fileName.data = false ∧
        allowedZipContentExt e.fileName = false) →
      isErr (extractZip entries dir) = true) ∧
    (∀ (pre : List ZipEntry) (e : ZipEntry) (post : List ZipEntry),
      entries = pre ++ e :: post →
      (∀ e' ∈ pre, entryOk e' = true) →
      endsSlashChars e.fileName.data = false →
      safeEntryPath e.fileName = true →
      allowedZipContentExt e.fileName = false →
      extractZip entries dir = .error ("Unsupported file type in ZIP: " ++ e.fileName ++
        " (" ++ lowerStr (extname e.fileName) ++ ")")) := by
  constructor
  · rintro ⟨e, he, hend, hext⟩
    exact extractZip_err_of_run_some entries dir
      (extractRun_err_of_bad dir entries initExtractState e he hend (Or.inr hext))
  · intro pre e post hsplit hok hend hsafe hext
    rcases extractRun_ok_prefix dir pre initExtractState (e :: post) hok with ⟨st', hpre⟩
    have hd : ¬ endsSlashChars e.fileName.data = true := by simp [hend]
    have hs : ¬ safeEntryPath e.fileName = false := by simp [hsafe]
    have hstep : extractStep dir st' e =
        (st', some ("Unsupported file type in ZIP: " ++ e.fileName ++
          " (" ++ lowerStr (extname e.fileName) ++ ")")) := by
      simp [extractStep, hd, hs, hext]
    have hrun : extractRun dir initExtractState entries =
        (st', some ("Unsupported file type in ZIP: " ++ e.fileName ++
          " (" ++ lowerStr (extname e.fileName) ++ ")")) := by
      rw [hsplit, hpre, extractRun, hstep]
    rw [extractZip, hrun]

theorem disallowed_extension_rejects_archive_witness :
    extractZip [⟨"evil.exe", [.text "x"]⟩] "/app/tmp/e" =
      .error "Unsupported file type in ZIP: evil.exe (.exe)" :=
  (disallowed_extension_rejects_archive [⟨"evil.exe", [.text "x"]⟩] "/app/tmp/e").2
    [] ⟨"evil.exe", [.text "x"]⟩ [] rfl (by decide) (by decide) (by decide) (by decide)

/-- C10 (amended): the extractor's path-safety predicate rejects any
non-directory entry whose normalized path contains the substring `".."`
anywhere — including names with no parent-traversal segment such as
`notes..backup.html` — so for every successfully extracted archive, no
recorded file name normalizes to a path containing `".."`.  The raw
recorded relative path itself may still contain `".."` when normalization
removes the traversal (see the counterexample). -/
theorem normalized_path_dotdot_rejection :
    safeEntryPath "notes..backup.html" = false ∧
    (∀ fn, safeEntryPath fn = true → strIncludes (pathNormalize fn) ".." = false) ∧
    (∀ (entries : List ZipEntry) (dir : String) (r : ExtractionResult),
      extractZip entries dir = .ok r →
      ∀ fn ∈ r.files, strIncludes (pathNormalize fn) ".." = false) := by
  have hsafe : ∀ fn, safeEntryPath fn = true → strIncludes (pathNormalize fn) ".." = false := by
    intro fn h
    exact (by simpa [safeEntryPath] using h :
      strIncludes (pathNormalize fn) ".." = false ∧
        pathIsAbsolute (pathNormalize fn) = false).1
  refine ⟨by decide, hsafe, ?_⟩
  intro entries dir r hok fn hfn
  rcases hrun : extractRun dir initExtractState entries with ⟨st, o⟩
  rcases o with _ | msg
  · have hfiles : r.files = st.files := by
      simp only [extractZip, hrun] at hok
      by_cases hflag : st.hasIndexHtml = false
      · rw [if_pos hflag] at hok
        exact absurd hok (by simp)
      · rw [if_neg hflag] at hok
        have h2 := Except.ok.inj hok
        rw [h2.symm]
    have hacc := extractRun_files_invariant dir entries initExtractState
      (by intro fn' hfn'; exact absurd hfn' (List.not_mem_nil fn')) fn
      (by rw [hrun]; rw [hfiles] at hfn; exact hfn)
    rcases Bool.and_eq_true_iff.mp hacc with ⟨h1, _⟩
    rcases Bool.and_eq_true_iff.mp h1 with ⟨h2, _⟩
    exact hsafe fn h2
  · rw [extractZip, hrun] at hok
    exact absurd hok (by simp)

theorem normalized_path_dotdot_rejection_witness :
    strIncludes (pathNormalize "index.html") ".." = false :=
  normalized_path_dotdot_rejection.2.2 [⟨"index.html", [.text "hi"]⟩] "/app/tmp/e"
    ⟨["index.html"], true⟩ (by rfl) "index.html" (by decide)

/-- C10 is refuted as stated: the pipeline deploys the archive
`[index.html, a/b/../c.html]` successfully, and the deployed file list of
the returned summary contains the relative path `a/b/../c.html`, which
contains `".."` as a substring — the safety predicate examines only the
normalized path `a/c.html`, while the raw entry name is what is recorded
and used for the write. -/
theorem deployed_raw_path_contains_dotdot :
    (processZipUpload fileDotDotZip "u1" "s1" 0).1 =
      .ok ⟨"zip", ["index.html", "a/b/../c.html"], 3, some true⟩ ∧
    strIncludes "a/b/../c.html" ".." = true ∧
    safeEntryPath "a/b/../c.html" = true := by
  exact ⟨by rfl, by decide, by decide⟩

theorem validateFileCfg_type (mh mz : Nat) (file : Option MulterFile) (type : String)
    (h : validateFileCfg mh mz file type = .ok ()) : type = "html" ∨ type = "zip" := by
  by_cases h1 : type = "html"
  · exact Or.inl h1
  · by_cases h2 : type = "zip"
    · exact Or.inr h2
    · exfalso
      rcases file with _ | f
      · exact absurd h (by simp [validateFileCfg])
      · by_cases hn : f.originalname = ""
        · rw [validateFileCfg, if_pos hn] at h
          exact absurd h (by simp)
        · rw [validateFileCfg, if_neg hn] at h
          simp only [if_neg h1, if_neg h2] at h
          exact absurd h (by simp)

/-- C2 (amended): after any call to `processUpload` in which validation
succeeds — whether the upload then succeeds or fails — the uploaded temp
file is unlinked, and for ZIP uploads the staging directory created during
the call is removed on every exit path.  When validation fails, the call
returns before the `try`/`finally`, so no cleanup happens at all (see the
counterexample). -/
theorem cleanup_after_validation (f : MulterFile) (type userId siteId : String) (now : Nat)
    (hv : validateFile (some f) type = .ok ()) :
    FsEvent.unlink f.path ∈ (processUpload (some f) type userId siteId now).2 ∧
    (type = "zip" →
      FsEvent.rmTree (getTempFilePath ("extract_" ++ siteId ++ "_" ++ toString now)) ∈
        (processUpload (some f) type userId siteId now).2) := by
  have hty := validateFileCfg_type MAX_HTML_SIZE MAX_ZIP_SIZE (some f) type hv
  have hshape : (processUpload (some f) type userId siteId now).2 =
      (if type = "html" then processHtmlUpload f userId siteId
       else if type = "zip" then processZipUpload f userId siteId now
       else (.error "Invalid upload type", [])).2 ++ [.unlink f.path] := by
    rw [processUpload, hv]
  constructor
  · rw [hshape]
    exact List.mem_append.mpr (Or.inr (List.mem_singleton.mpr rfl))
  · intro hz
    have hne : ¬ (type = "html") := by
      rw [hz]
      decide
    rw [hshape, if_neg hne, if_pos hz]
    have hzt : ∃ evs, (processZipUpload f userId siteId now).2 =
        evs ++ [FsEvent.rmTree (getTempFilePath ("extract_" ++ siteId ++ "_" ++ toString now))] := by
      rw [processZipUpload]
      split
      · exact ⟨_, rfl⟩
      · split
        · exact ⟨_, rfl⟩
        · exact ⟨_, rfl⟩
    rcases hzt with ⟨evs, heq⟩
    rw [heq]
    exact List.mem_append.mpr (Or.inl
      (List.mem_append.mpr (Or.inr (List.mem_singleton.mpr rfl))))

theorem cleanup_after_validation_witness :
    FsEvent.unlink "/app/tmp/up2" ∈ (processUpload (some fileSmallZip) "zip" "u1" "s1" 7).2 ∧
    FsEvent.rmTree "/app/tmp/extract_s1_7" ∈
      (processUpload (some fileSmallZip) "zip" "u1" "s1" 7).2 := by
  have h := cleanup_after_validation fileSmallZip "zip" "u1" "s1" 7 (by rfl)
  exact ⟨h.1, h.2 rfl⟩

/-- C2 is refuted as stated: `validateFile` is invoked before the
`try`/`finally` of `processUpload`, so a validation failure (here: a
`.txt` file declared as `html`) returns with an empty trace — in
particular the uploaded source file at `/app/tmp/upload_1` is never
unlinked and still exists after the call. -/
theorem validation_failure_skips_cleanup :
    (processUpload (some fileWrongExt) "html" "u1" "s1" 0).2 = [] ∧
    isErr (processUpload (some fileWrongExt) "html" "u1" "s1" 0).1 = true ∧
    ¬ (FsEvent.unlink "/app/tmp/upload_1" ∈
        (processUpload (some fileWrongExt) "html" "u1" "s1" 0).2) := by
  refine ⟨by rfl, by rfl, ?_⟩
  intro hmem
  rw [show (processUpload (some fileWrongExt) "html" "u1" "s1" 0).2 = [] from rfl] at hmem
  exact List.not_mem_nil _ hmem

theorem deployLoop_total (tempDir siteDir : String) (entries : List ZipEntry) :
    ∀ files : List String,
      (deployLoop tempDir siteDir entries files).1 =
        (files.map (fun fn => utf8Len (render (lookupEntryContent entries fn)))).sum := by
  intro files
  induction files with
  | nil => rfl
  | cons fn rest ih => simp [deployLoop, ih]

theorem deployLoop_files_id (tempDir siteDir : String) (entries : List ZipEntry) :
    ∀ files : List String, (deployLoop tempDir siteDir entries files).2.1 = files := by
  intro files
  induction files with
  | nil => rfl
  | cons fn rest ih => simp [deployLoop, ih]

theorem deployLoop_written (tempDir siteDir : String) (entries : List ZipEntry) :
    ∀ files : List String,
      writtenBytes (deployLoop tempDir siteDir entries files).2.2 =
        (files.map (fun fn =>
          if isHtmlFileName fn = true
          then utf8Len (render (sanitizeTokens (lookupEntryContent entries fn)))
          else utf8Len (render (lookupEntryContent entries fn)))).sum := by
  intro files
  induction files with
  | nil => rfl
  | cons fn rest ih =>
    by_cases hh : isHtmlFileName fn = true
    · simp [deployLoop, writtenBytes, eventBytes, hh]
      simpa [writtenBytes] using ih
    · simp [deployLoop, writtenBytes, eventBytes, hh]
      simpa [writtenBytes] using ih

/-- C9 (amended): the `size` of a successful ZIP deployment summary is the
aggregate byte size of the extracted files as staged, before
sanitization; the bytes actually written into the site directory replace
each `.html`/`.htm` file's staged bytes by its sanitized bytes, so the
two totals agree exactly when sanitization preserves every deployed HTML
file's byte length (and in general they differ — see the
counterexample). -/
theorem zip_size_reports_staged_bytes :
    (∀ (tempDir siteDir : String) (entries : List ZipEntry) (files : List String),
      (deployLoop tempDir siteDir entries files).1 =
        (files.map (fun fn => utf8Len (render (lookupEntryContent entries fn)))).sum) ∧
    (∀ (tempDir siteDir : String) (entries : List ZipEntry) (files : List String),
      writtenBytes (deployLoop tempDir siteDir entries files).2.2 =
        (files.map (fun fn =>
          if isHtmlFileName fn = true
          then utf8Len (render (sanitizeTokens (lookupEntryContent entries fn)))
          else utf8Len (render (lookupEntryContent entries fn)))).sum) ∧
    (∀ (tempDir siteDir : String) (entries : List ZipEntry) (files : List String),
      (∀ fn ∈ files, isHtmlFileName fn = true →
        utf8Len (render (sanitizeTokens (lookupEntryContent entries fn))) =
          utf8Len (render (lookupEntryContent entries fn))) →
      writtenBytes (deployLoop tempDir siteDir entries files).2.2 =
        (deployLoop tempDir siteDir entries files).1) ∧
    (∀ (f : MulterFile) (userId siteId : String) (now : Nat)
        (smry : DeploymentSummary) (evs : List FsEvent),
      processZipUpload f userId siteId now = (.ok smry, evs) →
      smry.size = (smry.files.map
        (fun fn => utf8Len (render (lookupEntryContent (zipEntriesOf f.content) fn)))).sum) := by
  refine ⟨deployLoop_total, deployLoop_written, ?_, ?_⟩
  · intro tempDir siteDir entries files hpres
    rw [deployLoop_total, deployLoop_written]
    congr 1
    apply List.map_congr_left
    intro fn hfn
    by_cases hh : isHtmlFileName fn = true
    · rw [if_pos hh]
      exact hpres fn hfn hh
    · rw [if_neg hh]
  · intro f userId siteId now smry evs hproc
    rw [processZipUpload] at hproc
    split at hproc
    · exact absurd (congrArg Prod.fst hproc) (by simp)
    · split at hproc
      · exact absurd (congrArg Prod.fst hproc) (by simp)
      · have h1 := Except.ok.inj (congrArg Prod.fst hproc)
        rw [h1.symm]
        rw [show ∀ (a : String) (b : List String) (c : Nat) (d : Option Bool),
            (DeploymentSummary.mk a b c d).size = c from fun _ _ _ _ => rfl]
        rw [show ∀ (a : String) (b : List String) (c : Nat) (d : Option Bool),
            (DeploymentSummary.mk a b c d).files = b from fun _ _ _ _ => rfl]
        rw [deployLoop_files_id, deployLoop_total]

/-- C9 is refuted as stated: for the single-page archive whose
`index.html` holds `<script>alert(1)</script>` (25 staged bytes), the
returned summary reports `size = 25`, while the bytes actually written
into the site directory are the sanitized `<span>alert(1)</span>`
(21 bytes). -/
theorem zip_size_mismatch :
    (processZipUpload fileScriptZip "u1" "s1" 0).1 =
      .ok ⟨"zip", ["index.html"], 25, some true⟩ ∧
    writtenBytesUnder (getSiteDir "u1" "s1") (processZipUpload fileScriptZip "u1" "s1" 0).2 = 21 ∧
    (25 : Nat) ≠ 21 :=
  ⟨by rfl, by rfl, by decide⟩

theorem zip_size_reports_staged_bytes_witness :
    (writtenBytes (deployLoop "/app/tmp/e" "/app/sites/u1/s1"
        [⟨"style.css", [.text "x"]⟩] ["style.css"]).2.2 =
      (deployLoop "/app/tmp/e" "/app/sites/u1/s1"
        [⟨"style.css", [.text "x"]⟩] ["style.css"]).1) ∧
    (DeploymentSummary.mk "zip" ["index.html"] 25 (some true)).size =
      (["index.html"].map (fun fn =>
        utf8Len (render (lookupEntryContent (zipEntriesOf fileScriptZip.content) fn)))).sum := by
  constructor
  · exact zip_size_reports_staged_bytes.2.2.1 "/app/tmp/e" "/app/sites/u1/s1"
      [⟨"style.css", [.text "x"]⟩] ["style.css"] (by decide)
  · exact zip_size_reports_staged_bytes.2.2.2 fileScriptZip "u1" "s1" 0
      ⟨"zip", ["index.html"], 25, some true⟩
      [.writeFile "/app/tmp/extract_s1_0/index.html" "<script>alert(1)</script>",
       .writeFile "/app/sites/u1/s1/index.html" "<span>alert(1)</span>",
       .rmTree "/app/tmp/extract_s1_0"] (by rfl)

theorem splitSlash_ne_nil : ∀ p : List Char, splitSlash p ≠ [] := by
  intro p
  induction p with
  | nil => simp [splitSlash]
  | cons c cs ih =>
    by_cases hc : c = '/'
    · simp [splitSlash, hc]
    · rcases hcs : splitSlash cs with _ | ⟨s, ss⟩
      · exact absurd hcs ih
      · simp [splitSlash, hc, hcs]

theorem splitSlash_append : ∀ a b : List Char,
    splitSlash (a ++ '/' :: b) = splitSlash a ++ splitSlash b := by
  intro a b
  induction a with
  | nil => simp [splitSlash]
  | cons c cs ih =>
    by_cases hc : c = '/'
    · simp [splitSlash, hc, ih]
    · rcases hcs : splitSlash cs with _ | ⟨s, ss⟩
      · exact absurd hcs (splitSlash_ne_nil cs)
      · have h1 : splitSlash ((c :: cs) ++ '/' :: b) =
            match splitSlash (cs ++ '/' :: b) with
            | [] => [[c]]
            | s :: ss => (c :: s) :: ss := by
          simp [splitSlash, hc]
        rw [h1, ih, hcs]
        simp [splitSlash, hc, hcs]

theorem interSlash_singleton (s : List Char) : interSlash [s] = s := rfl

theorem interSlash_cons₂ (s t : List Char) (ts : List (List Char)) :
    interSlash (s :: t :: ts) = s ++ '/' :: interSlash (t :: ts) := rfl

theorem interSlash_splitSlash : ∀ p : List Char, interSlash (splitSlash p) = p := by
  intro p
  induction p with
  | nil => simp [splitSlash, interSlash]
  | cons c cs ih =>
    rcases hcs : splitSlash cs with _ | ⟨s, ss⟩
    · exact absurd hcs (splitSlash_ne_nil cs)
    · rw [hcs] at ih
      by_cases hc : c = '/'
      · have h1 : splitSlash (c :: cs) = [] :: s :: ss := by simp [splitSlash, hc, hcs]
        rw [h1, interSlash_cons₂, ih, hc]
        simp
      · have h1 : splitSlash (c :: cs) = (c :: s) :: ss := by simp [splitSlash, hc, hcs]
        rw [h1]
        rcases ss with _ | ⟨t, ts⟩
        · rw [interSlash_singleton] at ih ⊢
          rw [ih]
        · rw [interSlash_cons₂] at ih ⊢
          rw [List.cons_append, ih]

theorem interSlash_append : ∀ l₁ l₂ : List (List Char), l₁ ≠ [] → l₂ ≠ [] →
    interSlash (l₁ ++ l₂) = interSlash l₁ ++ '/' :: interSlash l₂ := by
  intro l₁
  induction l₁ with
  | nil => intro l₂ h; exact absurd rfl h
  | cons s ss ih =>
    intro l₂ _ h2
    rcases ss with _ | ⟨t, ts⟩
    · rcases l₂ with _ | ⟨u, us⟩
      · exact absurd rfl h2
      · rw [List.singleton_append, interSlash_cons₂, interSlash_singleton]
    · have h1 : interSlash ((s :: t :: ts) ++ l₂) =
          s ++ '/' :: interSlash ((t :: ts) ++ l₂) := by
        rcases l₂ with _ | ⟨u, us⟩
        · exact absurd rfl h2
        · rfl
      rw [h1, ih l₂ (by simp) h2, interSlash_cons₂]
      simp

theorem normalSeg_spec (s : List Char) :
    normalSeg s = true ↔ s ≠ [] ∧ s ≠ ['.'] ∧ s ≠ ['.', '.'] := by
  simp [normalSeg, and_assoc]

theorem resolveSegs_nil (allow : Bool) (stack : List (List Char)) :
    resolveSegs allow stack [] = stack := rfl

theorem resolveSegs_cons (allow : Bool) (stack : List (List Char)) (s : List Char)
    (rest : List (List Char)) :
    resolveSegs allow stack (s :: rest) = resolveSegs allow (resolveStep allow stack s) rest := rfl

theorem resolveStep_skip (allow : Bool) (stack : List (List Char)) (s : List Char)
    (h : s = [] ∨ s = ['.']) : resolveStep allow stack s = stack := by
  unfold resolveStep
  rw [if_pos h]

theorem resolveStep_push (allow : Bool) (stack : List (List Char)) (s : List Char)
    (h : normalSeg s = true) : resolveStep allow stack s = s :: stack := by
  rcases (normalSeg_spec s).mp h with ⟨h1, h2, h3⟩
  unfold resolveStep
  rw [if_neg (by tauto), if_neg h3]

theorem resolveStep_dd_cons (allow : Bool) (t : List Char) (stk : List (List Char))
    (h : ¬ t = ['.', '.']) :
    resolveStep allow (t :: stk) ['.', '.'] = stk := by
  unfold resolveStep
  rw [if_neg (by decide), if_pos rfl]
  show (if t = ['.', '.'] then (if allow then ['.', '.'] :: t :: stk else t :: stk) else stk) = stk
  rw [if_neg h]

theorem resolveStep_dd_dd (allow : Bool) (t : List Char) (stk : List (List Char))
    (h : t = ['.', '.']) :
    resolveStep allow (t :: stk) ['.', '.'] =
      (if allow then ['.', '.'] :: t :: stk else t :: stk) := by
  unfold resolveStep
  rw [if_neg (by decide), if_pos rfl]
  show (if t = ['.', '.'] then (if allow then ['.', '.'] :: t :: stk else t :: stk) else stk) = _
  rw [if_pos h]

theorem resolveStep_dd_empty (allow : Bool) :
    resolveStep allow [] ['.', '.'] = (if allow then [['.', '.']] else []) := by
  unfold resolveStep
  rw [if_neg (by decide), if_pos rfl]

theorem hitsBottom_skip (d : Nat) (s : List Char) (rest : List (List Char))
    (h : s = [] ∨ s = ['.']) :
    hitsBottom d (s :: rest) = hitsBottom d rest := by
  show (if s = [] ∨ s = ['.'] then hitsBottom d rest
    else if s = ['.', '.'] then
      (match d with
       | 0 => true
       | d' + 1 => hitsBottom d' rest)
    else hitsBottom (d + 1) rest) = hitsBottom d rest
  rw [if_pos h]

theorem hitsBottom_push (d : Nat) (s : List Char) (rest : List (List Char))
    (h : normalSeg s = true) :
    hitsBottom d (s :: rest) = hitsBottom (d + 1) rest := by
  rcases (normalSeg_spec s).mp h with ⟨h1, h2, h3⟩
  show (if s = [] ∨ s = ['.'] then hitsBottom d rest
    else if s = ['.', '.'] then
      (match d with
       | 0 => true
       | d' + 1 => hitsBottom d' rest)
    else hitsBottom (d + 1) rest) = hitsBottom (d + 1) rest
  rw [if_neg (by tauto), if_neg h3]

theorem hitsBottom_dd_succ (d : Nat) (rest : List (List Char)) :
    hitsBottom (d + 1) (['.', '.'] :: rest) = hitsBottom d rest := rfl

theorem hitsBottom_dd_zero (rest : List (List Char)) :
    hitsBottom 0 (['.', '.'] :: rest) = true := rfl

theorem resolveSegs_all_normal : ∀ (l : List (List Char)),
    (∀ x ∈ l, normalSeg x = true) →
    ∀ (allow : Bool) (stack rest : List (List Char)),
      resolveSegs allow stack (l ++ rest) = resolveSegs allow (l.reverse ++ stack) rest := by
  intro l
  induction l with
  | nil => intro _ allow stack rest; rfl
  | cons s ss ih =>
    intro h allow stack rest
    have hs : normalSeg s = true := h s (List.mem_cons_self s ss)
    rw [List.cons_append, resolveSegs_cons, resolveStep_push allow stack s hs]
    rw [ih (fun x hx => h x (List.mem_cons_of_mem s hx)) allow (s :: stack) rest]
    simp

theorem resolveSegs_stack_split : ∀ (segs loc stack : List (List Char)) (allow : Bool),
    hitsBottom loc.length segs = false →
    (∀ x ∈ loc, x ≠ ['.', '.']) →
    resolveSegs allow (loc ++ stack) segs = resolveSegs allow loc segs ++ stack := by
  intro segs
  induction segs with
  | nil => intro loc stack allow _ _; rfl
  | cons s rest ih =>
    intro loc stack allow hhb hloc
    by_cases h0 : s = [] ∨ s = ['.']
    · rw [resolveSegs_cons, resolveStep_skip allow _ s h0,
        resolveSegs_cons, resolveStep_skip allow loc s h0]
      rw [hitsBottom_skip loc.length s rest h0] at hhb
      exact ih loc stack allow hhb hloc
    · by_cases hdd : s = ['.', '.']
      · subst hdd
        rcases loc with _ | ⟨t, loc'⟩
        · rw [show (([] : List (List Char))).length = 0 from rfl,
            hitsBottom_dd_zero rest] at hhb
          exact absurd hhb (by simp)
        · have ht : ¬ t = ['.', '.'] := hloc t (List.mem_cons_self t loc')
          rw [List.cons_append, resolveSegs_cons, resolveStep_dd_cons allow t (loc' ++ stack) ht,
            resolveSegs_cons, resolveStep_dd_cons allow t loc' ht]
          rw [show (t :: loc').length = loc'.length + 1 from rfl, hitsBottom_dd_succ] at hhb
          exact ih loc' stack allow hhb (fun x hx => hloc x (List.mem_cons_of_mem t hx))
      · have hn : normalSeg s = true := (normalSeg_spec s).mpr ⟨by tauto, by tauto, hdd⟩
        rw [resolveSegs_cons, resolveStep_push allow _ s hn,
          resolveSegs_cons, resolveStep_push allow loc s hn]
        rw [hitsBottom_push loc.length s rest hn] at hhb
        exact ih (s :: loc) stack allow (by simpa using hhb)
          (fun x hx => by
            rcases List.mem_cons.mp hx with rfl | hx'
            · exact ((normalSeg_spec x).mp hn).2.2
            · exact hloc x hx')

theorem resolveSegs_dd_bottom : ∀ (segs s dds : List (List Char)) (allow : Bool),
    (∀ x ∈ dds, x = ['.', '.']) → dds ≠ [] →
    ['.', '.'] ∈ resolveSegs allow (s ++ dds) segs := by
  intro segs
  induction segs with
  | nil =>
    intro s dds allow hdds hne
    rcases dds with _ | ⟨t, ts⟩
    · exact absurd rfl hne
    · rw [resolveSegs_nil]
      have : t = ['.', '.'] := hdds t (List.mem_cons_self t ts)
      rw [this] at *
      exact List.mem_append.mpr (Or.inr (List.mem_cons_self _ ts))
  | cons x rest ih =>
    intro s dds allow hdds hne
    by_cases h0 : x = [] ∨ x = ['.']
    · rw [resolveSegs_cons, resolveStep_skip allow _ x h0]
      exact ih s dds allow hdds hne
    · by_cases hdd : x = ['.', '.']
      · subst hdd
        rcases s with _ | ⟨t, s'⟩
        · rcases dds with _ | ⟨u, us⟩
          · exact absurd rfl hne
          · have hu : u = ['.', '.'] := hdds u (List.mem_cons_self u us)
            rw [List.nil_append, resolveSegs_cons, resolveStep_dd_dd allow u us hu]
            by_cases hal : allow = true
            · rw [if_pos hal]
              have := ih [] (['.', '.'] :: u :: us) allow
                (fun y hy => by
                  rcases List.mem_cons.mp hy with rfl | hy'
                  · rfl
                  · exact hdds y hy') (by simp)
              simpa using this
            · rw [if_neg hal]
              exact ih [] (u :: us) allow hdds (by simp)
        · by_cases ht : t = ['.', '.']
          · rw [List.cons_append, resolveSegs_cons,
              resolveStep_dd_dd allow t (s' ++ dds) ht]
            by_cases hal : allow = true
            · rw [if_pos hal]
              have := ih (['.', '.'] :: t :: s') dds allow hdds hne
              simpa using this
            · rw [if_neg hal]
              have := ih (t :: s') dds allow hdds hne
              simpa using this
          · rw [List.cons_append, resolveSegs_cons,
              resolveStep_dd_cons allow t (s' ++ dds) ht]
            exact ih s' dds allow hdds hne
      · have hn : normalSeg x = true := (normalSeg_spec x).mpr ⟨by tauto, by tauto, hdd⟩
        rw [resolveSegs_cons, resolveStep_push allow _ x hn]
        have := ih (x :: s) dds allow hdds hne
        simpa using this

theorem hitsBottom_dd_mem : ∀ (segs loc dds : List (List Char)),
    (∀ x ∈ loc, x ≠ ['.', '.']) → (∀ x ∈ dds, x = ['.', '.']) →
    hitsBottom loc.length segs = true →
    ['.', '.'] ∈ resolveSegs true (loc ++ dds) segs := by
  intro segs
  induction segs with
  | nil =>
    intro loc dds _ _ hhb
    exact absurd hhb (by simp [hitsBottom])
  | cons x rest ih =>
    intro loc dds hloc hdds hhb
    by_cases h0 : x = [] ∨ x = ['.']
    · rw [resolveSegs_cons, resolveStep_skip true _ x h0]
      rw [hitsBottom_skip loc.length x rest h0] at hhb
      exact ih loc dds hloc hdds hhb
    · by_cases hdd : x = ['.', '.']
      · subst hdd
        rcases loc with _ | ⟨t, loc'⟩
        · rcases dds with _ | ⟨u, us⟩
          · rw [List.nil_append, resolveSegs_cons, resolveStep_dd_empty true, if_pos rfl]
            exact resolveSegs_dd_bottom rest [] [['.', '.']] true (by simp) (by simp)
          · have hu : u = ['.', '.'] := hdds u (List.mem_cons_self u us)
            rw [List.nil_append, resolveSegs_cons, resolveStep_dd_dd true u us hu, if_pos rfl]
            have := resolveSegs_dd_bottom rest [] (['.', '.'] :: u :: us) true
              (fun y hy => by
                rcases List.mem_cons.mp hy with rfl | hy'
                · rfl
                · exact hdds y hy') (by simp)
            simpa using this
        · have ht : ¬ t = ['.', '.'] := hloc t (List.mem_cons_self t loc')
          rw [List.cons_append, resolveSegs_cons, resolveStep_dd_cons true t (loc' ++ dds) ht]
          rw [show (t :: loc').length = loc'.length + 1 from rfl, hitsBottom_dd_succ] at hhb
          exact ih loc' dds (fun y hy => hloc y (List.mem_cons_of_mem t hy)) hdds hhb
      · have hn : normalSeg x = true := (normalSeg_spec x).mpr ⟨by tauto, by tauto, hdd⟩
        rw [resolveSegs_cons, resolveStep_push true _ x hn]
        rw [hitsBottom_push loc.length x rest hn] at hhb
        have := ih (x :: loc) dds
          (fun y hy => by
            rcases List.mem_cons.mp hy with rfl | hy'
            · exact ((normalSeg_spec y).mp hn).2.2
            · exact hloc y hy') hdds (by simpa using hhb)
        simpa using this

theorem mem_interSlash_infix : ∀ (l : List (List Char)) (x : List Char),
    x ∈ l → x <:+: interSlash l := by
  intro l
  induction l with
  | nil => intro x hx; exact absurd hx (List.not_mem_nil x)
  | cons s ss ih =>
    intro x hx
    rcases List.mem_cons.mp hx with rfl | hx'
    · rcases ss with _ | ⟨t, ts⟩
      · rw [interSlash_singleton]
      · rw [interSlash_cons₂]
        exact ⟨[], '/' :: interSlash (t :: ts), rfl⟩
    · have hne : ss ≠ [] := by
        intro h0
        rw [h0] at hx'
        exact List.not_mem_nil x hx'
      rcases ss with _ | ⟨t, ts⟩
      · exact absurd rfl hne
      · rcases ih x hx' with ⟨u, v, huv⟩
        rw [interSlash_cons₂]
        refine ⟨s ++ '/' :: u, v, ?_⟩
        rw [← huv]
        simp

theorem isSubList_shift : ∀ (u p v : List Char), isSubList p (u ++ p ++ v) = true := by
  intro u
  induction u with
  | nil =>
    intro p v
    rcases hpv : p ++ v with _ | ⟨c, rest⟩
    · rcases List.append_eq_nil.mp hpv with ⟨rfl, rfl⟩
      rfl
    · rw [List.nil_append, hpv, isSubList]
      have hp : p.isPrefixOf (c :: rest) = true := by
        rw [← hpv]
        exact List.isPrefixOf_iff_prefix.mpr ⟨v, rfl⟩
      rw [hp]
      rfl
  | cons c u' ih =>
    intro p v
    rw [List.cons_append, List.cons_append, isSubList, ih p v]
    simp

theorem isSubList_of_infix (p l : List Char) (h : p <:+: l) : isSubList p l = true := by
  rcases h with ⟨u, v, huv⟩
  rw [← huv]
  exact isSubList_shift u p v

theorem normChars_abs (p : List Char) (h : isAbsChars p = true) :
    isAbsChars (normChars p) = true := by
  have hne : ¬ (p = []) := by
    intro h0
    rw [h0] at h
    exact absurd h (by decide)
  rw [normChars, if_neg hne]
  simp only [h, eq_self_iff_true, if_true]
  split
  · rfl
  · split
    · rfl
    · rfl

theorem safeEntry_no_hitsBottom (f : String) (h : safeEntryPath f = true) :
    hitsBottom 0 (splitSlash f.data) = false := by
  obtain ⟨hinc, habs'⟩ : strIncludes (pathNormalize f) ".." = false ∧
      pathIsAbsolute (pathNormalize f) = false := by simpa [safeEntryPath] using h
  have habs : isAbsChars f.data = false := by
    cases hb : isAbsChars f.data
    · rfl
    · have h2 := normChars_abs f.data hb
      have h3 : pathIsAbsolute (pathNormalize f) = true := h2
      rw [h3] at habs'
      exact absurd habs' (by simp)
  cases hb : hitsBottom 0 (splitSlash f.data)
  · rfl
  · exfalso
    have hdd : ['.', '.'] ∈ resolveSegs true [] (splitSlash f.data) := by
      have := hitsBottom_dd_mem (splitSlash f.data) [] [] (by simp) (by simp) hb
      simpa using this
    have hne : f.data ≠ [] := by
      intro h0
      rw [h0] at hb
      exact absurd hb (by decide)
    have hinf : ['.', '.'] <:+: interSlash (resolveSegs true [] (splitSlash f.data)).reverse :=
      mem_interSlash_infix _ _ (List.mem_reverse.mpr hdd)
    have hbody : interSlash (resolveSegs true [] (splitSlash f.data)).reverse ≠ [] := by
      intro h0
      rw [h0] at hinf
      rcases hinf with ⟨u, v, huv⟩
      simp at huv
    have hstep : strIncludes (pathNormalize f) ".." = true := by
      show isSubList ['.', '.'] (normChars f.data) = true
      rw [normChars, if_neg hne]
      simp only [habs, Bool.not_false, Bool.false_eq_true, if_false]
      rw [if_neg hbody]
      by_cases htr : endsSlashChars f.data = true
      · rw [if_pos htr]
        rcases hinf with ⟨u, v, huv⟩
        exact isSubList_of_infix _ _ ⟨u, v ++ ['/'], by rw [← huv]; simp⟩
      · rw [if_neg htr]
        exact isSubList_of_infix _ _ hinf
    rw [hstep] at hinc
    exact absurd hinc (by simp)

theorem isAbsChars_cons (c : Char) (r : List Char) :
    isAbsChars (c :: r) = decide (c = '/') := rfl

theorem endsSlashChars_eq (p : List Char) (c : Char) (h : p.getLast? = some c) :
    endsSlashChars p = decide (c = '/') := by
  unfold endsSlashChars
  rw [h]

theorem splitSlash_concat : ∀ (p : List Char) (c : Char), ¬ c = '/' →
    ∀ (init : List (List Char)) (L : List Char), splitSlash p = init ++ [L] →
    splitSlash (p ++ [c]) = init ++ [L ++ [c]] := by
  intro p
  induction p with
  | nil =>
    intro c hc init L hsp
    rw [show splitSlash ([] : List Char) = [[]] from rfl] at hsp
    rcases init with _ | ⟨a, as⟩
    · simp at hsp
      subst hsp
      simp [splitSlash, hc]
    · exfalso
      have hl := congrArg List.length hsp
      simp at hl
  | cons c0 cs ih =>
    intro c hc init L hsp
    by_cases hc0 : c0 = '/'
    · rw [show splitSlash (c0 :: cs) = [] :: splitSlash cs from by simp [splitSlash, hc0]] at hsp
      rcases init with _ | ⟨a, as⟩
      · exfalso
        rw [List.nil_append] at hsp
        have h2 : splitSlash cs = [] := (List.cons.inj hsp.symm).2.symm
        exact splitSlash_ne_nil cs h2
      · rw [List.cons_append] at hsp
        have h1 := (List.cons.inj hsp).1
        have h2 := (List.cons.inj hsp).2
        have ih2 := ih c hc as L h2
        have hgoal : splitSlash ((c0 :: cs) ++ [c]) = [] :: splitSlash (cs ++ [c]) := by
          simp [splitSlash, hc0]
        rw [hgoal, ih2, ← h1]
        rfl
    · rcases hcs : splitSlash cs with _ | ⟨s, ss⟩
      · exact absurd hcs (splitSlash_ne_nil cs)
      · have hsp2 : splitSlash (c0 :: cs) = (c0 :: s) :: ss := by simp [splitSlash, hc0, hcs]
        rw [hsp2] at hsp
        rcases ss with _ | ⟨t, ts⟩
        · rcases init with _ | ⟨a, as⟩
          · rw [List.nil_append] at hsp
            have hL : c0 :: s = L := (List.cons.inj hsp).1
            have ih2 := ih c hc [] s (by rw [hcs]; rfl)
            have hgoal : splitSlash ((c0 :: cs) ++ [c]) =
                match splitSlash (cs ++ [c]) with
                | [] => [[c0]]
                | s' :: ss' => (c0 :: s') :: ss' := by
              simp [splitSlash, hc0]
            rw [hgoal, ih2]
            rw [← hL]
            rfl
          · exfalso
            have hl := congrArg List.length hsp
            simp at hl
        · rcases init with _ | ⟨a, as⟩
          · exfalso
            have hl := congrArg List.length hsp
            simp at hl
          · rw [List.cons_append] at hsp
            have h1 := (List.cons.inj hsp).1
            have h2 := (List.cons.inj hsp).2
            have hcs2 : splitSlash cs = (s :: as) ++ [L] := by
              rw [hcs, h2, List.cons_append]
            have ih2 := ih c hc (s :: as) L hcs2
            have hgoal : splitSlash ((c0 :: cs) ++ [c]) =
                match splitSlash (cs ++ [c]) with
                | [] => [[c0]]
                | s' :: ss' => (c0 :: s') :: ss' := by
              simp [splitSlash, hc0]
            rw [hgoal, ih2]
            rw [List.cons_append, ← h1]
            rfl

theorem splitSlash_last (p : List Char) :
    ∃ init, splitSlash p =
      init ++ [((p.reverse.takeWhile (fun x => !(x = '/')))).reverse] := by
  induction p using List.reverseRecOn with
  | nil => exact ⟨[], rfl⟩
  | append_singleton q c ih =>
    by_cases hc : c = '/'
    · subst hc
      refine ⟨splitSlash q, ?_⟩
      have h1 : q ++ ['/'] = q ++ '/' :: [] := rfl
      rw [h1, splitSlash_append q []]
      have h2 : ((q ++ ['/']).reverse.takeWhile (fun x => !(x = '/'))) = [] := by
        rw [List.reverse_append]
        rfl
      rw [h2]
      rfl
    · rcases ih with ⟨init, hinit⟩
      refine ⟨init, ?_⟩
      have h2 : ((q ++ [c]).reverse.takeWhile (fun x => !(x = '/'))).reverse =
          (q.reverse.takeWhile (fun x => !(x = '/'))).reverse ++ [c] := by
        rw [List.reverse_append]
        have h3 : ([c].reverse ++ q.reverse).takeWhile (fun x => !(x = '/')) =
            c :: q.reverse.takeWhile (fun x => !(x = '/')) := by
          have : [c].reverse ++ q.reverse = c :: q.reverse := rfl
          rw [this, List.takeWhile_cons_of_pos (by simpa using hc)]
        rw [h3]
        simp
      rw [h2]
      exact splitSlash_concat q c hc init _ hinit

theorem dropWhile_reverse_of_not_ends (p : List Char) (h : endsSlashChars p = false) :
    p.reverse.dropWhile (fun c => c = '/') = p.reverse := by
  rcases hr : p.reverse with _ | ⟨c, t⟩
  · rfl
  · have hlast : p.getLast? = some c := by
      rw [← List.head?_reverse, hr]
      rfl
    have hc : ¬ (c = '/') := by
      intro hcc
      have h2 : endsSlashChars p = true := by
        rw [endsSlashChars_eq p c hlast, hcc]
        rfl
      rw [h2] at h
      exact absurd h (by simp)
    rw [List.dropWhile_cons_of_neg (by simpa using hc)]

theorem lastSeg_eq_run (p : List Char) (h : endsSlashChars p = false) :
    lastSeg p = ((p.reverse.takeWhile (fun x => !(x = '/')))).reverse := by
  unfold lastSeg
  rw [dropWhile_reverse_of_not_ends p h]

theorem allowedExt_lastSeg_normal (f : String) (h : allowedZipContentExt f = true) :
    normalSeg (lastSeg f.data) = true := by
  by_cases hdd : lastSeg f.data = ['.', '.']
  · have hext0 : extname f = "" := by
      unfold extname
      rw [if_pos hdd]
    rw [allowedZipContentExt, hext0] at h
    exact absurd h (by decide)
  · by_cases hlen : ((lastSeg f.data).reverse.takeWhile (fun c => !(c = '.'))).length + 1 <
        (lastSeg f.data).length
    · refine (normalSeg_spec (lastSeg f.data)).mpr ⟨?_, ?_, hdd⟩
      · intro h0
        rw [h0] at hlen
        simp at hlen
      · intro h0
        rw [h0] at hlen
        simp at hlen
    · have hext0 : extname f = "" := by
        unfold extname
        rw [if_neg hdd, if_neg hlen]
      rw [allowedZipContentExt, hext0] at h
      exact absurd h (by decide)

theorem resolveSegs_ne_nil_of_last : ∀ (init : List (List Char)) (b : List Char),
    normalSeg b = true → ∀ (allow : Bool) (stack : List (List Char)),
    resolveSegs allow stack (init ++ [b]) ≠ [] := by
  intro init
  induction init with
  | nil =>
    intro b hb allow stack
    rw [List.nil_append, resolveSegs_cons, resolveStep_push allow stack b hb, resolveSegs_nil]
    simp
  | cons x init' ih =>
    intro b hb allow stack
    rw [List.cons_append, resolveSegs_cons]
    exact ih b hb allow _

theorem splitSlash_no_slash : ∀ p : List Char, ¬ '/' ∈ p → splitSlash p = [p] := by
  intro p
  induction p with
  | nil => intro _; rfl
  | cons c cs ih =>
    intro h
    have hc : ¬ c = '/' := by
      intro hh
      exact h (by rw [hh]; exact List.mem_cons_self '/' cs)
    have hcs := ih (fun hm => h (List.mem_cons_of_mem c hm))
    simp [splitSlash, hc, hcs]

theorem strData_append (a b : String) : (a ++ b).data = a.data ++ b.data := by
  cases a
  cases b
  rfl

theorem getLast?_append_right (l₁ l₂ : List Char) (h : l₂ ≠ []) :
    (l₁ ++ l₂).getLast? = l₂.getLast? := by
  rw [List.getLast?_append, List.getLast?_eq_getLast l₂ h]
  rfl

theorem normChars_abs_form (p : List Char) (hne : ¬ p = [])
    (habs : isAbsChars p = true) (htrail : endsSlashChars p = false)
    (hbody : ¬ interSlash (resolveSegs false [] (splitSlash p)).reverse = []) :
    normChars p = '/' :: interSlash (resolveSegs false [] (splitSlash p)).reverse := by
  unfold normChars
  rw [if_neg hne]
  simp only [habs, htrail, Bool.not_true, Bool.false_eq_true, if_false,
    eq_self_iff_true, if_true]
  rw [if_neg hbody]

theorem pathJoin_under_goodDir (d f : String) (hd : goodDir d = true)
    (hsafe : safeEntryPath f = true) (hends : endsSlashChars f.data = false)
    (hext : allowedZipContentExt f = true) :
    strStartsWith (pathJoin d f) (d ++ "/") = true := by
  rcases Bool.and_eq_true_iff.mp hd with ⟨habs, hall⟩
  rcases hd2 : d.data with _ | ⟨c, rest⟩
  · rw [hd2] at habs
    exact absurd habs (by decide)
  · have hc : c = '/' := by
      rw [hd2, isAbsChars_cons] at habs
      exact of_decide_eq_true habs
    subst hc
    have hall2 : ∀ x ∈ splitSlash rest, normalSeg x = true := by
      intro x hx
      rw [hd2] at hall
      exact List.all_eq_true.mp hall x hx
    have hrest : interSlash (splitSlash rest) = rest := interSlash_splitSlash rest
    have hb : normalSeg (lastSeg f.data) = true := allowedExt_lastSeg_normal f hext
    have hfne : f.data ≠ [] := by
      intro h0
      rw [h0] at hb
      exact absurd hb (by decide)
    rcases splitSlash_last f.data with ⟨init, hinit⟩
    have hsegF : splitSlash f.data = init ++ [lastSeg f.data] := by
      rw [hinit, lastSeg_eq_run f.data hends]
    have hHB : hitsBottom 0 (splitSlash f.data) = false := safeEntry_no_hitsBottom f hsafe
    have hdne : ¬ (d = "") := by
      intro h0
      rw [h0] at hd2
      simp at hd2
    have hfne' : ¬ (f = "") := by
      intro h0
      rw [h0] at hfne
      exact hfne rfl
    have hjoin : pathJoin d f = pathNormalize (d ++ "/" ++ f) := by
      unfold pathJoin
      rw [if_neg (by tauto), if_neg hdne, if_neg hfne']
    have hchars : (d ++ "/" ++ f).data = '/' :: (rest ++ '/' :: f.data) := by
      rw [strData_append, strData_append, hd2,
        show ("/" : String).data = ['/'] from rfl]
      simp
    have hlf : resolveSegs false [] (splitSlash f.data) ≠ [] := by
      rw [hsegF]
      exact resolveSegs_ne_nil_of_last init (lastSeg f.data) hb false []
    have hsgne : splitSlash rest ≠ [] := splitSlash_ne_nil rest
    have hlfrne : (resolveSegs false [] (splitSlash f.data)).reverse ≠ [] := by
      intro h0
      exact hlf (by simpa using congrArg List.reverse h0)
    have hsplitp : splitSlash ('/' :: (rest ++ '/' :: f.data)) =
        [] :: (splitSlash rest ++ splitSlash f.data) := by
      rw [show splitSlash ('/' :: (rest ++ '/' :: f.data)) =
          [] :: splitSlash (rest ++ '/' :: f.data) from by simp [splitSlash]]
      rw [splitSlash_append]
    have hres : resolveSegs false [] (splitSlash ('/' :: (rest ++ '/' :: f.data))) =
        resolveSegs false [] (splitSlash f.data) ++ (splitSlash rest).reverse := by
      rw [hsplitp, resolveSegs_cons, resolveStep_skip false [] [] (Or.inl rfl)]
      rw [resolveSegs_all_normal (splitSlash rest) hall2 false [] (splitSlash f.data)]
      have h1 := resolveSegs_stack_split (splitSlash f.data) [] (splitSlash rest).reverse false
        (by simpa using hHB) (by simp)
      rw [List.append_nil]
      simpa using h1
    have hbody : interSlash (resolveSegs false []
          (splitSlash ('/' :: (rest ++ '/' :: f.data)))).reverse =
        rest ++ '/' :: interSlash (resolveSegs false [] (splitSlash f.data)).reverse := by
      rw [hres, List.reverse_append, List.reverse_reverse]
      rw [interSlash_append (splitSlash rest)
        (resolveSegs false [] (splitSlash f.data)).reverse hsgne hlfrne, hrest]
    have hpne : ¬ (('/' :: (rest ++ '/' :: f.data)) = ([] : List Char)) := by simp
    have habsp : isAbsChars ('/' :: (rest ++ '/' :: f.data)) = true := by
      rw [isAbsChars_cons]
      rfl
    have htrailp : endsSlashChars ('/' :: (rest ++ '/' :: f.data)) = false := by
      have hgl : ('/' :: (rest ++ '/' :: f.data)).getLast? = f.data.getLast? := by
        rw [show ('/' :: (rest ++ '/' :: f.data)) = ('/' :: rest ++ ['/']) ++ f.data from by simp]
        exact getLast?_append_right _ _ hfne
      unfold endsSlashChars
      rw [hgl]
      unfold endsSlashChars at hends
      exact hends
    have hbne : ¬ interSlash (resolveSegs false []
        (splitSlash ('/' :: (rest ++ '/' :: f.data)))).reverse = [] := by
      rw [hbody]
      intro h0
      have := congrArg List.length h0
      simp at this
    have hnorm : normChars ('/' :: (rest ++ '/' :: f.data)) =
        '/' :: (rest ++ '/' :: interSlash (resolveSegs false [] (splitSlash f.data)).reverse) := by
      rw [normChars_abs_form _ hpne habsp htrailp hbne, hbody]
    show strStartsWith (pathJoin d f) (d ++ "/") = true
    rw [hjoin]
    show (d ++ "/").data.isPrefixOf (normChars ((d ++ "/" ++ f).data)) = true
    rw [hchars, hnorm, strData_append, hd2]
    apply List.isPrefixOf_iff_prefix.mpr
    refine ⟨interSlash (resolveSegs false [] (splitSlash f.data)).reverse, ?_⟩
    show ('/' :: rest ++ ("/" : String).data) ++
        interSlash (resolveSegs false [] (splitSlash f.data)).reverse =
      '/' :: (rest ++ '/' :: interSlash (resolveSegs false [] (splitSlash f.data)).reverse)
    simp

theorem strMk_data (s : String) : String.mk s.data = s := by
  cases s
  rfl

theorem goodDir_join (d n : String) (hd : goodDir d = true) (hn : cleanSegName n = true) :
    pathJoin d n = d ++ "/" ++ n ∧ goodDir (d ++ "/" ++ n) = true := by
  rcases Bool.and_eq_true_iff.mp hd with ⟨habs, hall⟩
  rcases Bool.and_eq_true_iff.mp hn with ⟨hnseg, hnsl⟩
  have hnsl' : ¬ '/' ∈ n.data := by simpa using hnsl
  rcases hd2 : d.data with _ | ⟨c, rest⟩
  · rw [hd2] at habs
    exact absurd habs (by decide)
  · have hc : c = '/' := by
      rw [hd2, isAbsChars_cons] at habs
      exact of_decide_eq_true habs
    subst hc
    have hall2 : ∀ x ∈ splitSlash rest, normalSeg x = true := by
      intro x hx
      rw [hd2] at hall
      exact List.all_eq_true.mp hall x hx
    have hrest : interSlash (splitSlash rest) = rest := interSlash_splitSlash rest
    have hnne : n.data ≠ [] := ((normalSeg_spec n.data).mp hnseg).1
    have hdne : ¬ (d = "") := by
      intro h0
      rw [h0] at hd2
      simp at hd2
    have hfne' : ¬ (n = "") := by
      intro h0
      rw [h0] at hnne
      exact hnne rfl
    have hchars : (d ++ "/" ++ n).data = '/' :: (rest ++ '/' :: n.data) := by
      rw [strData_append, strData_append, hd2,
        show ("/" : String).data = ['/'] from rfl]
      simp
    have hsplitn : splitSlash n.data = [n.data] := splitSlash_no_slash n.data hnsl'
    have hsplitp : splitSlash ('/' :: (rest ++ '/' :: n.data)) =
        [] :: (splitSlash rest ++ [n.data]) := by
      rw [show splitSlash ('/' :: (rest ++ '/' :: n.data)) =
          [] :: splitSlash (rest ++ '/' :: n.data) from by simp [splitSlash]]
      rw [splitSlash_append, hsplitn]
    have hallp : ∀ x ∈ splitSlash rest ++ [n.data], normalSeg x = true := by
      intro x hx
      rcases List.mem_append.mp hx with hx' | hx'
      · exact hall2 x hx'
      · rcases List.mem_singleton.mp hx' with rfl
        exact hnseg
    have hres : resolveSegs false [] (splitSlash ('/' :: (rest ++ '/' :: n.data))) =
        (splitSlash rest ++ [n.data]).reverse := by
      rw [hsplitp, resolveSegs_cons, resolveStep_skip false [] [] (Or.inl rfl)]
      have h1 := resolveSegs_all_normal (splitSlash rest ++ [n.data]) hallp false [] []
      rw [List.append_nil] at h1
      rw [h1, resolveSegs_nil, List.append_nil]
    have hbody : interSlash (resolveSegs false []
          (splitSlash ('/' :: (rest ++ '/' :: n.data)))).reverse =
        rest ++ '/' :: n.data := by
      rw [hres, List.reverse_reverse,
        interSlash_append (splitSlash rest) [n.data] (splitSlash_ne_nil rest) (by simp),
        hrest, interSlash_singleton]
    have hpne : ¬ (('/' :: (rest ++ '/' :: n.data)) = ([] : List Char)) := by simp
    have habsp : isAbsChars ('/' :: (rest ++ '/' :: n.data)) = true := by
      rw [isAbsChars_cons]
      rfl
    have htrailp : endsSlashChars ('/' :: (rest ++ '/' :: n.data)) = false := by
      have hgl : ('/' :: (rest ++ '/' :: n.data)).getLast? = n.data.getLast? := by
        rw [show ('/' :: (rest ++ '/' :: n.data)) = ('/' :: rest ++ ['/']) ++ n.data from by simp]
        exact getLast?_append_right _ _ hnne
      rcases hgl2 : n.data.getLast? with _ | c2
      · rw [List.getLast?_eq_none_iff] at hgl2
        exact absurd hgl2 hnne
      · have hc2 : c2 ∈ n.data := by
          rcases List.mem_getLast?_eq_getLast
              (show c2 ∈ n.data.getLast? from by rw [hgl2]; rfl) with ⟨hne2, heq2⟩
          rw [heq2]
          exact List.getLast_mem hne2
        have hc2' : ¬ (c2 = '/') := by
          intro hh
          rw [hh] at hc2
          exact hnsl' hc2
        unfold endsSlashChars
        rw [hgl, hgl2]
        simpa using hc2'
    have hbne : ¬ interSlash (resolveSegs false []
        (splitSlash ('/' :: (rest ++ '/' :: n.data)))).reverse = [] := by
      rw [hbody]
      intro h0
      have := congrArg List.length h0
      simp at this
    have hnorm : normChars ('/' :: (rest ++ '/' :: n.data)) =
        '/' :: (rest ++ '/' :: n.data) := by
      rw [normChars_abs_form _ hpne habsp htrailp hbne, hbody]
    have hjoin : pathJoin d n = d ++ "/" ++ n := by
      unfold pathJoin
      rw [if_neg (by tauto), if_neg hdne, if_neg hfne']
      show String.mk (normChars ((d ++ "/" ++ n).data)) = d ++ "/" ++ n
      rw [hchars, hnorm, ← hchars, strMk_data]
    refine ⟨hjoin, ?_⟩
    rw [goodDir, hchars]
    have h2 : isAbsChars ('/' :: (rest ++ '/' :: n.data)) = true := habsp
    rw [h2]
    have h3 : ('/' :: (rest ++ '/' :: n.data)).tail = rest ++ '/' :: n.data := rfl
    rw [h3, splitSlash_append, hsplitn]
    simpa using List.all_eq_true.mpr hallp

theorem goodDir_getSiteDir (userId siteId : String)
    (hu : cleanSegName userId = true) (hs : cleanSegName siteId = true) :
    goodDir (getSiteDir userId siteId) = true := by
  have h0 : goodDir sitesDir = true := by decide
  rcases goodDir_join sitesDir userId h0 hu with ⟨he, hg⟩
  rcases goodDir_join (sitesDir ++ "/" ++ userId) siteId hg hs with ⟨he2, hg2⟩
  rw [getSiteDir, he, he2]
  exact hg2

/-- C1 (amended): the single-HTML write path (`StorageManager.writeFile`)
checks before writing that the normalized destination starts with the
site directory and fails with the path-traversal error exactly when it
does not; the ZIP deployment loop performs no per-write containment
check (see the counterexample), but every file name the extractor accepts
resolves strictly below any well-formed site root, every name in a
successful extraction result is such an accepted name, and site
directories built from clean identifiers are well-formed roots — so no
file of a ZIP upload is ever written outside the site directory root. -/
theorem deployment_write_containment :
    (∀ userId siteId fileName content,
      isErr (storageWriteFile userId siteId fileName content) =
        !(strStartsWith (pathNormalize (pathJoin (getSiteDir userId siteId) fileName))
          (getSiteDir userId siteId))) ∧
    (∀ d f, goodDir d = true → safeEntryPath f = true → endsSlashChars f.data = false →
      allowedZipContentExt f = true → strStartsWith (pathJoin d f) (d ++ "/") = true) ∧
    (∀ tempDir d entries files, goodDir d = true →
      (∀ fn ∈ files, acceptedName fn = true) →
      ∀ ev ∈ (deployLoop tempDir d entries files).2.2, ∀ p, eventDest ev = some p →
        strStartsWith p (d ++ "/") = true) ∧
    (∀ (entries : List ZipEntry) (dir : String) (r : ExtractionResult),
      extractZip entries dir = .ok r → ∀ fn ∈ r.files, acceptedName fn = true) ∧
    (∀ userId siteId, cleanSegName userId = true → cleanSegName siteId = true →
      goodDir (getSiteDir userId siteId) = true) := by
  have haccept : ∀ (tempDir d : String) (entries : List ZipEntry) (files : List String),
      goodDir d = true → (∀ fn ∈ files, acceptedName fn = true) →
      ∀ ev ∈ (deployLoop tempDir d entries files).2.2, ∀ p, eventDest ev = some p →
        strStartsWith p (d ++ "/") = true := by
    intro tempDir d entries files hd
    induction files with
    | nil => intro _ ev hev; exact absurd hev (List.not_mem_nil ev)
    | cons fn rest ih =>
      intro hall ev hev p hp
      have hfn : acceptedName fn = true := hall fn (List.mem_cons_self fn rest)
      rcases Bool.and_eq_true_iff.mp hfn with ⟨h1, hext⟩
      rcases Bool.and_eq_true_iff.mp h1 with ⟨hsafe, hend⟩
      have hend' : endsSlashChars fn.data = false := by
        cases hb : endsSlashChars fn.data
        · rfl
        · rw [hb] at hend
          exact absurd hend (by simp)
      have hunder : strStartsWith (pathJoin d fn) (d ++ "/") = true :=
        pathJoin_under_goodDir d fn hd hsafe hend' hext
      rw [deployLoop] at hev
      rcases List.mem_cons.mp hev with rfl | hev'
      · by_cases hh : isHtmlFileName fn = true
        · rw [if_pos hh] at hp
          have : p = pathJoin d fn := (Option.some.inj hp).symm
          rw [this]
          exact hunder
        · rw [if_neg hh] at hp
          have : p = pathJoin d fn := (Option.some.inj hp).symm
          rw [this]
          exact hunder
      · exact ih (fun x hx => hall x (List.mem_cons_of_mem fn hx)) ev hev' p hp
  refine ⟨?_, pathJoin_under_goodDir, haccept, ?_, goodDir_getSiteDir⟩
  · intro userId siteId fileName content
    cases hsw : strStartsWith (pathNormalize (pathJoin (getSiteDir userId siteId) fileName))
        (getSiteDir userId siteId)
    · simp [storageWriteFile, hsw, isErr]
    · simp [storageWriteFile, hsw, isErr]
  · intro entries dir r hok fn hfn
    rcases hrun : extractRun dir initExtractState entries with ⟨st, o⟩
    rcases o with _ | msg
    · have hfiles : r.files = st.files := by
        simp only [extractZip, hrun] at hok
        by_cases hflag : st.hasIndexHtml = false
        · rw [if_pos hflag] at hok
          exact absurd hok (by simp)
        · rw [if_neg hflag] at hok
          have h2 := Except.ok.inj hok
          rw [h2.symm]
      exact extractRun_files_invariant dir entries initExtractState
        (by intro fn' hfn'; exact absurd hfn' (List.not_mem_nil fn')) fn
        (by rw [hrun]; rw [hfiles] at hfn; exact hfn)
    · rw [extractZip, hrun] at hok
      exact absurd hok (by simp)

theorem deployment_write_containment_witness :
    strStartsWith (pathJoin "/app/sites/u1/s1" "index.html") ("/app/sites/u1/s1" ++ "/") = true ∧
    goodDir (getSiteDir "u1" "s1") = true := by
  constructor
  · exact deployment_write_containment.2.1 "/app/sites/u1/s1" "index.html"
      (by decide) (by decide) (by decide) (by decide)
  · exact deployment_write_containment.2.2.2.2 "u1" "s1" (by decide) (by decide)

/-- C1 is refuted as stated: the ZIP deployment loop performs no
containment check before writing.  Run on the file name `../evil.html`
(which the extractor would reject, but the writer itself never checks),
it writes to `/app/sites/u1/evil.html` — outside the site root
`/app/sites/u1/s1` — and reports no path-traversal error, whereas the
checked Deployment Writer that the specification describes fails with
the path-traversal error before writing. -/
theorem deployment_unchecked_write :
    (deployLoop "/app/tmp/e" "/app/sites/u1/s1"
        [⟨"../evil.html", [.text "x"]⟩] ["../evil.html"]).2.2 =
      [.writeFile "/app/sites/u1/evil.html" "x"] ∧
    strStartsWith "/app/sites/u1/evil.html" ("/app/sites/u1/s1" ++ "/") = false ∧
    strStartsWith (pathNormalize "/app/sites/u1/evil.html") "/app/sites/u1/s1" = false ∧
    deployLoopChecked "/app/tmp/e" "/app/sites/u1/s1"
        [⟨"../evil.html", [.text "x"]⟩] ["../evil.html"] =
      .error "Invalid file path: path traversal detected" :=
  ⟨by rfl, by decide, by decide, by rfl⟩
